import Mathlib

/-!
Verification development for the layout / document-model core of the
md-tui terminal markdown viewer (src/nodes/word.rs, src/nodes/textcomponent.rs,
src/nodes/root.rs).

Modelling conventions:
* Rust `String` / `&str` values are modelled as `List Char`.  Every string
  operation performed by the sources under study (`char_indices` +
  `len_utf8` splitting, `trim_start`, `starts_with`, `ends_with`, `pop`,
  `push`) works at character granularity — byte offsets computed by the
  code always fall on character boundaries — so the character-list model
  is exact for them.
* Machine integers (`u16`, `usize`) are modelled as `Nat`.  At the
  specific spots where the Rust code can underflow a `u16` subtraction
  we use `sub16` (wrapping subtraction modulo 2^16, the release-build
  semantics; debug builds would panic there) and say so in a comment.
  `usize` subtractions are kept as truncated `Nat` subtraction with a
  comment wherever the difference could matter.
* Code paths that panic (`unreachable!`, failed `assert!`, `expect`,
  out-of-bounds indexing) are modelled by returning `none` from an
  `Option`-valued function.
* The `unicode-width` crate is an external collaborator; `char_width`
  models it (control characters are width 0, wide East-Asian ranges are
  width 2, everything else width 1).  The claims under study depend only
  on widths being at most 2 and on the widths of a few ASCII characters.
-/

namespace MdTui

/-- Palette color, as in ratatui's `Color`.  Only `reset` is distinguished
by the sources under study; palette entries are indexed by `Nat`. -/
inductive Color where
  | reset : Color
  | palette : Nat → Color
deriving DecidableEq

/-- The `MetaData` enum of src/nodes/word.rs. -/
inductive MetaData where
  | UList | OList | PLanguage | Other | ColumnsCount
  | Important | Note | Tip | Warning | Caution
  | HeadingLevel : Nat → MetaData
deriving DecidableEq

/-- The `WordType` enum of src/nodes/word.rs. -/
inductive WordType where
  | Bold | BoldItalic | Code
  | CodeBlock : Color → WordType
  | Footnote | FootnoteData | FootnoteInline | Italic | Link | LinkData
  | ListMarker
  | MetaInfo : MetaData → WordType
  | Normal | Selected | Strikethrough | White
deriving DecidableEq

/-- The `Word` struct of src/nodes/word.rs: a content string, a current
kind and the optional saved previous kind. -/
structure Word where
  content : List Char
  word_type : WordType
  previous_type : Option WordType
deriving DecidableEq

/-- `Word::new`. -/
def Word.new (content : List Char) (word_type : WordType) : Word :=
  ⟨content, word_type, none⟩

/-- `Word::kind`. -/
def Word.kind (w : Word) : WordType := w.word_type

/-- `Word::previous_type` (falls back to the current type). -/
def Word.previousType (w : Word) : WordType :=
  w.previous_type.getD w.word_type

/-- `Word::set_content`. -/
def Word.set_content (w : Word) (c : List Char) : Word :=
  { w with content := c }

/-- `Word::set_kind`: save the current kind, install the new one. -/
def Word.set_kind (w : Word) (k : WordType) : Word :=
  { w with previous_type := some w.word_type, word_type := k }

/-- `Word::clear_kind`: restore the saved kind (no-op without one). -/
def Word.clear_kind (w : Word) : Word :=
  { w with word_type := w.previous_type.getD w.word_type, previous_type := none }

/-- `Word::is_renderable`. -/
def Word.is_renderable (w : Word) : Bool :=
  match w.kind with
  | .MetaInfo _ | .LinkData | .FootnoteData => false
  | _ => true

/-- Character display width, modelling the external `unicode-width`
crate (`UnicodeWidthChar::width(c).unwrap_or(0)`): control characters
have width 0, the common wide East-Asian ranges width 2, everything
else width 1.  The exact wide table is irrelevant to the claims; all
that is used is that widths are at most 2, and concrete widths of a few
ASCII and CJK characters. -/
def char_width (c : Char) : Nat :=
  if c.toNat < 0x20 then 0
  else if c.toNat = 0x7f then 0
  else if 0x1100 ≤ c.toNat ∧ c.toNat ≤ 0x115f then 2
  else if 0x2e80 ≤ c.toNat ∧ c.toNat ≤ 0xa4cf then 2
  else if 0xac00 ≤ c.toNat ∧ c.toNat ≤ 0xd7a3 then 2
  else if 0xf900 ≤ c.toNat ∧ c.toNat ≤ 0xfaff then 2
  else if 0xff00 ≤ c.toNat ∧ c.toNat ≤ 0xff60 then 2
  else if 0x20000 ≤ c.toNat ∧ c.toNat ≤ 0x3fffd then 2
  else 1

theorem char_width_le_two (c : Char) : char_width c ≤ 2 := by
  unfold char_width
  split <;> try omega
  all_goals (split <;> try omega)
  all_goals (split <;> try omega)
  all_goals (split <;> try omega)
  all_goals (split <;> try omega)
  all_goals (split <;> try omega)
  all_goals (split <;> try omega)
  all_goals (split <;> omega)

/-- `display_width` of src/nodes/textcomponent.rs (`UnicodeWidthStr::width`):
the sum of the character widths. -/
def display_width (text : List Char) : Nat :=
  (text.map char_width).sum

theorem display_width_nil : display_width [] = 0 := rfl

theorem display_width_cons (c : Char) (t : List Char) :
    display_width (c :: t) = char_width c + display_width t := by
  simp [display_width]

theorem display_width_append (a b : List Char) :
    display_width (a ++ b) = display_width a + display_width b := by
  simp [display_width]

/-- Rust `char::is_whitespace`: the Unicode White_Space property. -/
def rust_is_whitespace (c : Char) : Bool :=
  decide (c.toNat = 0x09 ∨ c.toNat = 0x0a ∨ c.toNat = 0x0b ∨ c.toNat = 0x0c ∨
    c.toNat = 0x0d ∨ c.toNat = 0x20 ∨ c.toNat = 0x85 ∨ c.toNat = 0xa0 ∨
    c.toNat = 0x1680 ∨ (0x2000 ≤ c.toNat ∧ c.toNat ≤ 0x200a) ∨
    c.toNat = 0x2028 ∨ c.toNat = 0x2029 ∨ c.toNat = 0x202f ∨
    c.toNat = 0x205f ∨ c.toNat = 0x3000)

/-- Loop of `split_by_width` (src/nodes/textcomponent.rs, lines 442–467).
`acc` is the already-consumed head (Rust tracks only its byte length,
`split_idx`), `w` the accumulated display width.  The Rust `split_idx == 0`
test is true exactly when no character has been consumed yet, i.e. when
`acc` is empty. -/
def split_by_width_go (max_width : Nat) (acc : List Char) (w : Nat) :
    List Char → List Char × List Char
  | [] => (acc, [])
  | c :: rest =>
    let cw := char_width c
    if w + cw > max_width then
      if acc.isEmpty then ([c], rest) else (acc, c :: rest)
    else if w + cw = max_width then (acc ++ [c], rest)
    else split_by_width_go max_width (acc ++ [c]) (w + cw) rest

/-- `split_by_width` of src/nodes/textcomponent.rs.  The Rust function
returns the two halves of `text.split_at(split_idx)`; `split_idx` is
always of the form `i + c.len_utf8()` for a character boundary, so the
split never lands inside a multi-byte character and the character-list
model is exact. -/
def split_by_width (text : List Char) (max_width : Nat) :
    List Char × List Char :=
  if max_width = 0 then ([], text)
  else split_by_width_go max_width [] 0 text

theorem split_by_width_go_append (max_width : Nat) :
    ∀ (t : List Char) (acc : List Char) (w : Nat),
      (split_by_width_go max_width acc w t).1 ++
        (split_by_width_go max_width acc w t).2 = acc ++ t := by
  intro t
  induction t with
  | nil => intro acc w; simp [split_by_width_go]
  | cons c rest ih =>
      intro acc w
      simp only [split_by_width_go]
      split
      · split
        · rename_i hacc
          simp_all [List.isEmpty_iff]
        · simp
      · split
        · simp
        · rw [ih]; simp

theorem split_by_width_append (text : List Char) (max_width : Nat) :
    (split_by_width text max_width).1 ++ (split_by_width text max_width).2
      = text := by
  unfold split_by_width
  split
  · simp
  · exact split_by_width_go_append max_width text [] 0

theorem display_width_take_le (l : List Char) (k : Nat) :
    display_width (l.take k) ≤ display_width l := by
  conv_rhs => rw [← List.take_append_drop k l]
  rw [display_width_append]
  omega

theorem split_by_width_go_spec (mw : Nat) (hmw : 1 ≤ mw) :
    ∀ (t acc : List Char) (w : Nat), w = display_width acc → w < mw →
      (∀ c r', (split_by_width_go mw acc w t).2 = c :: r' →
         display_width (split_by_width_go mw acc w t).1 = mw ∨
         mw < display_width (split_by_width_go mw acc w t).1 + char_width c) ∧
      (display_width (split_by_width_go mw acc w t).1 ≤ mw ∨
         (acc = [] ∧ ∃ c, (split_by_width_go mw acc w t).1 = [c] ∧
            mw < char_width c)) ∧
      (∀ k, k < (split_by_width_go mw acc w t).1.length →
         display_width ((split_by_width_go mw acc w t).1.take k) < mw) := by
  intro t
  induction t with
  | nil =>
      intro acc w hw hlt
      refine ⟨?_, ?_, ?_⟩
      · intro c r' h; simp [split_by_width_go] at h
      · left; simpa [split_by_width_go, ← hw] using Nat.le_of_lt hlt
      · intro k hk
        simp only [split_by_width_go] at hk ⊢
        exact lt_of_le_of_lt (by simpa [hw] using display_width_take_le acc k) hlt
  | cons c rest ih =>
      intro acc w hw hlt
      simp only [split_by_width_go]
      split
      · rename_i hover
        split
        · rename_i hacc
          rw [List.isEmpty_iff] at hacc
          subst hacc
          simp only [display_width_nil] at hw
          subst hw
          refine ⟨?_, ?_, ?_⟩
          · intro c' r' h
            right
            simp only [display_width_cons, display_width_nil]
            omega
          · right
            exact ⟨rfl, c, rfl, by simpa using hover⟩
          · intro k hk
            simp only [List.length_cons, List.length_nil] at hk
            interval_cases k
            simpa [display_width] using hmw
        · refine ⟨?_, ?_, ?_⟩
          · intro c' r' h
            dsimp only at h ⊢
            obtain ⟨h1, _⟩ := List.cons.inj h
            subst h1
            right; omega
          · left; dsimp only; omega
          · intro k hk
            dsimp only at hk ⊢
            exact lt_of_le_of_lt (by simpa [hw] using display_width_take_le acc k) hlt
      · split
        · rename_i hne heq
          refine ⟨?_, ?_, ?_⟩
          · intro c' r' h
            left
            rw [display_width_append, display_width_cons, display_width_nil]
            omega
          · left
            rw [display_width_append, display_width_cons, display_width_nil]
            omega
          · intro k hk
            simp only [List.length_append, List.length_cons, List.length_nil] at hk
            rw [List.take_append_of_le_length (by omega)]
            exact lt_of_le_of_lt (by simpa [hw] using display_width_take_le acc k) hlt
        · rename_i hne hneq
          have hlt' : w + char_width c < mw := by
            rcases Nat.lt_or_ge (w + char_width c) mw with h | h
            · exact h
            · omega
          obtain ⟨ih1, ih2, ih3⟩ := ih (acc ++ [c]) (w + char_width c)
            (by rw [display_width_append, display_width_cons, display_width_nil]; omega)
            hlt'
          refine ⟨ih1, ?_, ih3⟩
          rcases ih2 with h | ⟨habs, _⟩
          · exact Or.inl h
          · exact absurd habs (by simp)

/-- C7 (confirmed): `split_by_width(text, max_width)` returns a pair whose
concatenation is the original text; with `max_width = 0` it returns
`(empty, original)`; and for `max_width ≥ 1` the split point is where the
accumulated per-character display width first reaches `max_width`,
treating every character atomically: every proper prefix of the head has
width strictly below `max_width`, the head's width is at most `max_width`
(except when the very first character alone is wider than `max_width`,
which is kept whole rather than split inside), and whenever a tail
remains the head either has width exactly `max_width` or could not have
taken the next character without exceeding it.  Splitting inside a
multi-byte character is impossible by construction: the Rust split index
is always `i + c.len_utf8()`, a character boundary (see the model note on
`split_by_width`). -/
theorem C7_split_by_width_spec (text : List Char) (max_width : Nat)
    (hmw : 1 ≤ max_width) :
    (split_by_width text max_width).1 ++ (split_by_width text max_width).2
        = text ∧
    split_by_width text 0 = ([], text) ∧
    (∀ c r', (split_by_width text max_width).2 = c :: r' →
       display_width (split_by_width text max_width).1 = max_width ∨
       max_width <
         display_width (split_by_width text max_width).1 + char_width c) ∧
    (display_width (split_by_width text max_width).1 ≤ max_width ∨
       ∃ c, (split_by_width text max_width).1 = [c] ∧
         max_width < char_width c) ∧
    (∀ k, k < (split_by_width text max_width).1.length →
       display_width ((split_by_width text max_width).1.take k)
         < max_width) := by
  have h0 : split_by_width text 0 = ([], text) := by simp [split_by_width]
  have hne : ¬ max_width = 0 := by omega
  have hspec := split_by_width_go_spec max_width hmw text [] 0 (by rfl) hmw
  constructor
  · exact split_by_width_append text max_width
  refine ⟨h0, ?_, ?_, ?_⟩
  · intro c r' h
    rw [split_by_width, if_neg hne] at h ⊢
    exact hspec.1 c r' h
  · rw [split_by_width, if_neg hne]
    rcases hspec.2.1 with h | ⟨_, c, hc, hw⟩
    · exact Or.inl h
    · exact Or.inr ⟨c, hc, hw⟩
  · rw [split_by_width, if_neg hne]
    exact hspec.2.2

/-- Witness for C7 at `text = "abc"`, `max_width = 2`. -/
theorem C7_split_by_width_spec_witness :
    (1 ≤ 2) ∧
    ((split_by_width ("abc".data) 2).1 ++ (split_by_width ("abc".data) 2).2
        = "abc".data ∧
    split_by_width ("abc".data) 0 = ([], "abc".data) ∧
    (∀ c r', (split_by_width ("abc".data) 2).2 = c :: r' →
       display_width (split_by_width ("abc".data) 2).1 = 2 ∨
       2 < display_width (split_by_width ("abc".data) 2).1 + char_width c) ∧
    (display_width (split_by_width ("abc".data) 2).1 ≤ 2 ∨
       ∃ c, (split_by_width ("abc".data) 2).1 = [c] ∧ 2 < char_width c) ∧
    (∀ k, k < (split_by_width ("abc".data) 2).1.length →
       display_width ((split_by_width ("abc".data) 2).1.take k) < 2)) :=
  ⟨by omega, C7_split_by_width_spec ("abc".data) 2 (by omega)⟩

/-- Pop the last character of `h` onto the front of `t` and append a
hyphen to `h`.  This is the hyphen-insertion step of `word_wrapping`
(lines 391–396 and 409–414 of src/nodes/textcomponent.rs):
`content.pop()` / `newline_content.insert(0, last_char)` /
`content.push('-')`.  Rust guards with `!content.is_empty()`; the `none`
branch of the match realises the same guard. -/
def pop_push_hyphen (h t : List Char) : List Char × List Char :=
  match h.getLast? with
  | some c => (h.dropLast ++ ['-'], c :: t)
  | none => (h, t)

/-- Concatenated content of a word list. -/
def words_content (ws : List Word) : List Char :=
  (ws.map Word.content).flatten

/-- Concatenated content of a list of lines of words. -/
def lines_content (ls : List (List Word)) : List Char :=
  (ls.map words_content).flatten

theorem words_content_nil : words_content [] = [] := rfl

theorem words_content_append (a b : List Word) :
    words_content (a ++ b) = words_content a ++ words_content b := by
  simp [words_content]

theorem words_content_cons (w : Word) (ws : List Word) :
    words_content (w :: ws) = w.content ++ words_content ws := by
  simp [words_content]

theorem lines_content_nil : lines_content [] = [] := rfl

theorem lines_content_append (a b : List (List Word)) :
    lines_content (a ++ b) = lines_content a ++ lines_content b := by
  simp [lines_content]

theorem lines_content_cons (l : List Word) (ls : List (List Word)) :
    lines_content (l :: ls) = words_content l ++ lines_content ls := by
  simp [lines_content]

/-- Inner `while display_width(&newline_content) > width` loop of
`word_wrapping` (lines 401–419 of src/nodes/textcomponent.rs): repeatedly
split the remainder of an over-wide word into single-word lines.
Returned are the produced lines (in order) and the final remainder.

The `if hd : _` guard makes termination structural: in Rust the loop
always shrinks the remainder except when `width = 0` (where Rust would
loop forever pushing empty lines) — `word_wrapping` is only reached with
`width ≥ 1` by every `transform`, and under `width ≥ 1` the guard never
fails, because the split head is nonempty, has width at least 4 in the
hyphen case (hyphenation requires `width > 4` and character widths are
at most 2, so at least two characters are taken before popping one).

`split_long_q` is one iteration's split-and-maybe-hyphenate step:
`split_width` and the insertion condition both test the trailing hyphen
of the whole remainder `nc` (lines 402–414 of src/nodes/textcomponent.rs). -/
def split_long_q (width : Nat) (enable_hyphen : Bool) (nc : List Char) :
    List Char × List Char :=
  let sw := if enable_hyphen && !(decide (nc.getLast? = some '-'))
            then width - 1 else width
  if enable_hyphen && !(decide (nc.getLast? = some '-'))
  then pop_push_hyphen (split_by_width nc sw).1 (split_by_width nc sw).2
  else split_by_width nc sw

def split_long (width : Nat) (enable_hyphen : Bool) (k : WordType)
    (nc : List Char) : List (List Word) × List Char :=
  if display_width nc ≤ width then ([], nc)
  else
    let q := split_long_q width enable_hyphen nc
    if hd : q.2.length < nc.length then
      let r := split_long width enable_hyphen k q.2
      ([Word.new q.1 k] :: r.1, r.2)
    else ([[Word.new q.1 k]], q.2)
termination_by nc.length
decreasing_by exact hd

/-- Body of the long-word `else` branch of `word_wrapping` (lines 376–427
of src/nodes/textcomponent.rs), after the optional flush of the current
line: split the word, optionally move one character to the remainder and
append a hyphen (`split_width` tests the trailing hyphen of the whole
original content, the insertion step tests the trailing hyphen of the
split head — the shadowed `content` binding in the Rust), push the first
fragment onto the current line, run the remainder loop.  Returns the
accumulated lines and the final remainder.

`ww_first_q` is the first split of the over-wide word: `split_width`
tests the trailing hyphen of the whole original content, while the
insertion step tests the trailing hyphen of the split head (the
`content` binding is shadowed by the destructuring `let` in the Rust,
lines 384–396). -/
def ww_first_q (width : Nat) (enable_hyphen : Bool) (ll1 : Nat)
    (content : List Char) : List Char × List Char :=
  let ends_h : Bool := decide (content.getLast? = some '-')
  let sw := if enable_hyphen && !ends_h then width - ll1 - 1
            else width - ll1
  let p := split_by_width content sw
  if enable_hyphen && !(decide (p.1.getLast? = some '-'))
  then pop_push_hyphen p.1 p.2 else p

def ww_long (width : Nat) (enable_hyphen : Bool) (w : Word)
    (lines1 : List (List Word)) (line1 : List Word) (ll1 : Nat) :
    List (List Word) × List Char :=
  let q := ww_first_q width enable_hyphen ll1 w.content
  let r := split_long width enable_hyphen (w.kind) q.2
  ((lines1 ++ [line1 ++ [Word.new q.1 (w.kind)]]) ++ r.1, r.2)

/-- Main loop of `word_wrapping` (lines 336–436 of
src/nodes/textcomponent.rs), carrying the accumulated lines, the current
line and its display width.

Model notes mirroring the Rust:
* a word starting with a newline forces a hard break, with its leading
  newlines stripped (lines 350–361);
* a word that fits is appended (line 364); one that fits alone on a
  fresh line starts one with its leading whitespace trimmed (line 367);
* otherwise the word is wider than the whole width and is split
  (`ww_long`), flushing first when under 4 cells remain on the line.
  The Rust `width - line_len < 4` subtraction is on `usize`; `line_len`
  can exceed `width` only after a newline-carrying word wider than the
  width, where a debug build would panic and a release build would wrap
  (and skip the flush); we model the truncated subtraction (flush).
  The content-preservation theorem below holds under either semantics. -/
def word_wrapping_go (width : Nat) (enable_hyphen : Bool)
    (lines : List (List Word)) (line : List Word) (line_len : Nat) :
    List Word → List (List Word)
  | [] => if line.isEmpty then lines else lines ++ [line]
  | w :: ws =>
    if w.content.head? = some '\n' then
      let trimmed := w.content.dropWhile (· = '\n')
      if trimmed.isEmpty then
        word_wrapping_go width enable_hyphen (lines ++ [line]) [] 0 ws
      else
        word_wrapping_go width enable_hyphen (lines ++ [line])
          [w.set_content trimmed] (display_width trimmed) ws
    else
      let word_len := display_width w.content
      if line_len + word_len ≤ width then
        word_wrapping_go width enable_hyphen lines (line ++ [w])
          (line_len + word_len) ws
      else if word_len ≤ width then
        let t := w.content.dropWhile rust_is_whitespace
        word_wrapping_go width enable_hyphen (lines ++ [line])
          [w.set_content t] (display_width t) ws
      else
        let s := if width - line_len < 4 then
                   ((lines ++ [line], ([] : List Word), 0) :
                     List (List Word) × List Word × Nat)
                 else (lines, line, line_len)
        let lr := ww_long width enable_hyphen w s.1 s.2.1 s.2.2
        if lr.2.isEmpty then
          word_wrapping_go width enable_hyphen lr.1 [] 0 ws
        else
          word_wrapping_go width enable_hyphen lr.1
            [Word.new lr.2 (w.kind)] (display_width lr.2) ws

/-- `word_wrapping` of src/nodes/textcomponent.rs (lines 336–436).
`enable_hyphen = allow_hyphen && width > 4` (line 341). -/
def word_wrapping (words : List Word) (width : Nat) (allow_hyphen : Bool) :
    List (List Word) :=
  word_wrapping_go width (allow_hyphen && decide (4 < width)) [] [] 0 words

/-- Specification relation for wrapping-content preservation: the output
is obtained from the input by deleting whitespace characters (the
leading-trim at line starts) and inserting hyphen characters (the
hyphenation of split words). -/
inductive WrapRel : List Char → List Char → Prop where
  | nil : WrapRel [] []
  | keep (c : Char) {xs ys : List Char} :
      WrapRel xs ys → WrapRel (c :: xs) (c :: ys)
  | drop_ws {c : Char} {xs ys : List Char} :
      rust_is_whitespace c = true → WrapRel xs ys → WrapRel (c :: xs) ys
  | add_hyphen {xs ys : List Char} :
      WrapRel xs ys → WrapRel xs ('-' :: ys)

theorem wrap_rel_refl (l : List Char) : WrapRel l l := by
  induction l with
  | nil => exact .nil
  | cons c t ih => exact .keep c ih

theorem wrap_rel_append {a b c d : List Char}
    (h₁ : WrapRel a b) (h₂ : WrapRel c d) : WrapRel (a ++ c) (b ++ d) := by
  induction h₁ with
  | nil => exact h₂
  | keep x _ ih => exact .keep x ih
  | drop_ws hws _ ih => exact .drop_ws hws ih
  | add_hyphen _ ih => exact .add_hyphen ih

theorem wrap_rel_drop_all {p xs ys : List Char}
    (hp : ∀ c ∈ p, rust_is_whitespace c = true) (h : WrapRel xs ys) :
    WrapRel (p ++ xs) ys := by
  induction p with
  | nil => exact h
  | cons c t ih =>
      exact .drop_ws (hp c (by simp)) (ih (fun c hc => hp c (by simp [hc])))

theorem wrap_rel_pop_push (h t out : List Char)
    (rel : WrapRel (pop_push_hyphen h t).2 out) :
    WrapRel (h ++ t) ((pop_push_hyphen h t).1 ++ out) := by
  rcases hl : h.getLast? with _ | c
  · rw [List.getLast?_eq_none_iff] at hl
    subst hl
    simp only [pop_push_hyphen] at rel ⊢
    simpa using rel
  · have hne : h ≠ [] := by
      intro he; subst he; simp at hl
    simp only [pop_push_hyphen, hl] at rel ⊢
    have hc : h.getLast hne = c := by
      have := List.getLast?_eq_getLast h hne
      rw [hl] at this
      exact (Option.some.inj this).symm
    conv_lhs => rw [← List.dropLast_append_getLast hne]
    rw [hc, List.append_assoc, List.append_assoc]
    exact wrap_rel_append (wrap_rel_refl h.dropLast)
      (by simpa using WrapRel.add_hyphen rel)

theorem wrap_rel_split_choice (p : List Char × List Char) (b : Bool)
    (out : List Char)
    (rel : WrapRel (if b then pop_push_hyphen p.1 p.2 else p).2 out) :
    WrapRel (p.1 ++ p.2)
      ((if b then pop_push_hyphen p.1 p.2 else p).1 ++ out) := by
  cases b with
  | true => simpa using wrap_rel_pop_push p.1 p.2 out (by simpa using rel)
  | false => simpa using wrap_rel_append (wrap_rel_refl p.1) rel

theorem split_long_q_rel (width : Nat) (eh : Bool) (nc out : List Char)
    (rel : WrapRel (split_long_q width eh nc).2 out) :
    WrapRel nc ((split_long_q width eh nc).1 ++ out) := by
  unfold split_long_q at rel ⊢
  have base := wrap_rel_split_choice
    (split_by_width nc (if eh && !(decide (nc.getLast? = some '-'))
      then width - 1 else width))
    (eh && !(decide (nc.getLast? = some '-'))) out rel
  rwa [split_by_width_append] at base

theorem ww_first_q_rel (width : Nat) (eh : Bool) (ll1 : Nat)
    (content out : List Char)
    (rel : WrapRel (ww_first_q width eh ll1 content).2 out) :
    WrapRel content ((ww_first_q width eh ll1 content).1 ++ out) := by
  unfold ww_first_q at rel ⊢
  have base := wrap_rel_split_choice
    (split_by_width content
      (if eh && !(decide (content.getLast? = some '-'))
       then width - ll1 - 1 else width - ll1))
    (eh && !(decide ((split_by_width content
      (if eh && !(decide (content.getLast? = some '-'))
       then width - ll1 - 1 else width - ll1)).1.getLast? = some '-')))
    out rel
  rwa [split_by_width_append] at base

theorem split_long_spec (width : Nat) (eh : Bool) (k : WordType) :
    ∀ (n : Nat) (nc : List Char), nc.length ≤ n →
      WrapRel nc (lines_content (split_long width eh k nc).1 ++
        (split_long width eh k nc).2) := by
  intro n
  induction n with
  | zero =>
      intro nc hn
      rw [split_long]
      split
      · simpa [lines_content] using wrap_rel_refl nc
      · rename_i hgt
        exfalso
        have : nc = [] := List.length_eq_zero.mp (Nat.le_zero.mp hn)
        subst this
        simp [display_width] at hgt
  | succ m ih =>
      intro nc hn
      rw [split_long]
      split
      · simpa [lines_content] using wrap_rel_refl nc
      · rename_i hgt
        simp only
        split
        · rename_i hd
          have hrec := ih (split_long_q width eh nc).2 (by omega)
          have := split_long_q_rel width eh nc _ hrec
          simpa [lines_content_cons, words_content_cons, words_content_nil,
            List.append_assoc] using this
        · have := split_long_q_rel width eh nc _
            (wrap_rel_refl (split_long_q width eh nc).2)
          simpa [lines_content_cons, words_content_cons, words_content_nil,
            List.append_assoc] using this

theorem ww_long_spec (width : Nat) (eh : Bool) (w : Word)
    (lines1 : List (List Word)) (line1 : List Word) (ll1 : Nat) :
    lines_content (ww_long width eh w lines1 line1 ll1).1
        = lines_content lines1 ++ words_content line1 ++
          ((ww_first_q width eh ll1 w.content).1 ++
            lines_content (split_long width eh (w.kind)
              (ww_first_q width eh ll1 w.content).2).1) ∧
      WrapRel w.content
        (((ww_first_q width eh ll1 w.content).1 ++
            lines_content (split_long width eh (w.kind)
              (ww_first_q width eh ll1 w.content).2).1) ++
          (ww_long width eh w lines1 line1 ll1).2) := by
  constructor
  · simp [ww_long, lines_content_append, lines_content_cons,
      words_content_append, words_content_cons, words_content_nil,
      Word.new, List.append_assoc]
  · have hrec := split_long_spec width eh (w.kind)
      (ww_first_q width eh ll1 w.content).2.length
      (ww_first_q width eh ll1 w.content).2 (Nat.le_refl _)
    have := ww_first_q_rel width eh ll1 w.content _ hrec
    simpa [ww_long, List.append_assoc] using this

theorem word_wrapping_go_spec (width : Nat) (eh : Bool) :
    ∀ (ws : List Word) (lines : List (List Word)) (line : List Word)
      (ll : Nat),
      ∃ rest, lines_content (word_wrapping_go width eh lines line ll ws)
          = lines_content lines ++ words_content line ++ rest ∧
        WrapRel (words_content ws) rest := by
  intro ws
  induction ws with
  | nil =>
      intro lines line ll
      refine ⟨[], ?_, .nil⟩
      simp only [word_wrapping_go]
      split
      · rename_i hemp
        rw [List.isEmpty_iff] at hemp
        subst hemp
        simp [words_content_nil]
      · simp [lines_content_append, lines_content_cons, lines_content_nil]
  | cons w ws ih =>
      intro lines line ll
      simp only [word_wrapping_go]
      split
      · -- leading-newline hard break
        rename_i hnl
        split
        · -- the word was nothing but newlines
          rename_i hemp
          rw [List.isEmpty_iff] at hemp
          obtain ⟨rest, hres, hrel⟩ := ih (lines ++ [line]) [] 0
          refine ⟨rest, ?_, ?_⟩
          · simpa [lines_content_append, lines_content_cons,
              lines_content_nil, words_content_nil, List.append_assoc]
              using hres
          · rw [words_content_cons]
            have hall : ∀ c ∈ w.content, rust_is_whitespace c = true := by
              intro c hc
              have := (List.dropWhile_eq_nil_iff).mp hemp c hc
              have hceq : c = '\n' := by simpa using this
              subst hceq
              decide
            have : w.content ++ words_content ws
                = w.content ++ (words_content ws) := rfl
            exact wrap_rel_drop_all hall hrel
        · -- newlines stripped, remainder starts the next line
          rename_i hemp
          obtain ⟨rest, hres, hrel⟩ := ih (lines ++ [line])
            [w.set_content (w.content.dropWhile (· = '\n'))]
            (display_width (w.content.dropWhile (· = '\n')))
          refine ⟨w.content.dropWhile (· = '\n') ++ rest, ?_, ?_⟩
          · simpa [lines_content_append, lines_content_cons,
              lines_content_nil, words_content_cons, words_content_nil,
              Word.set_content, List.append_assoc] using hres
          · rw [words_content_cons]
            conv_lhs => rw [← List.takeWhile_append_dropWhile (p := (· = '\n'))
              (l := w.content)]
            rw [List.append_assoc]
            refine wrap_rel_drop_all ?_ (wrap_rel_append (wrap_rel_refl _) hrel)
            intro c hc
            have := List.mem_takeWhile_imp hc
            have hceq : c = '\n' := by simpa using this
            subst hceq
            decide
      · split
        · -- word fits on the current line
          obtain ⟨rest, hres, hrel⟩ := ih lines (line ++ [w])
            (ll + display_width w.content)
          refine ⟨w.content ++ rest, ?_, ?_⟩
          · simpa [words_content_append, words_content_cons,
              words_content_nil, List.append_assoc] using hres
          · rw [words_content_cons]
            exact wrap_rel_append (wrap_rel_refl _) hrel
        · split
          · -- word fits alone on a fresh line, leading whitespace trimmed
            obtain ⟨rest, hres, hrel⟩ := ih (lines ++ [line])
              [w.set_content (w.content.dropWhile rust_is_whitespace)]
              (display_width (w.content.dropWhile rust_is_whitespace))
            refine ⟨w.content.dropWhile rust_is_whitespace ++ rest, ?_, ?_⟩
            · simpa [lines_content_append, lines_content_cons,
                lines_content_nil, words_content_cons, words_content_nil,
                Word.set_content, List.append_assoc] using hres
            · rw [words_content_cons]
              conv_lhs => rw [← List.takeWhile_append_dropWhile
                (p := rust_is_whitespace) (l := w.content)]
              rw [List.append_assoc]
              refine wrap_rel_drop_all ?_
                (wrap_rel_append (wrap_rel_refl _) hrel)
              intro c hc
              exact List.mem_takeWhile_imp hc
          · -- the word is wider than the full width: split it
            rename_i hnfit1 hnfit2
            set s := if width - ll < 4 then
                ((lines ++ [line], ([] : List Word), 0) :
                  List (List Word) × List Word × Nat)
              else (lines, line, ll) with hs
            have hsplit : lines_content s.1 ++ words_content s.2.1
                = lines_content lines ++ words_content line := by
              rw [hs]
              split
              · simp [lines_content_append, lines_content_cons,
                  lines_content_nil, words_content_nil]
              · simp
            obtain ⟨hlc, hwr⟩ := ww_long_spec width eh w s.1 s.2.1 s.2.2
            set lr := ww_long width eh w s.1 s.2.1 s.2.2 with hlr
            set mid := (ww_first_q width eh s.2.2 w.content).1 ++
              lines_content (split_long width eh (w.kind)
                (ww_first_q width eh s.2.2 w.content).2).1 with hmid
            split
            · -- empty remainder: fresh empty current line
              rename_i hremp
              rw [List.isEmpty_iff] at hremp
              obtain ⟨rest, hres, hrel⟩ := ih lr.1 [] 0
              refine ⟨mid ++ lr.2 ++ rest, ?_, ?_⟩
              · rw [hres, hlc, hsplit, hremp]
                simp [words_content_nil, List.append_assoc]
              · rw [words_content_cons]
                have := wrap_rel_append hwr hrel
                simpa [List.append_assoc] using this
            · -- nonempty remainder: it starts the next current line
              obtain ⟨rest, hres, hrel⟩ := ih lr.1
                [Word.new lr.2 (w.kind)] (display_width lr.2)
              refine ⟨mid ++ lr.2 ++ rest, ?_, ?_⟩
              · rw [hres, hlc, hsplit]
                simp [words_content_cons, words_content_nil, Word.new,
                  List.append_assoc]
              · rw [words_content_cons]
                have := wrap_rel_append hwr hrel
                simpa [List.append_assoc] using this

/-- Counterexample to C1 as stated: wrapping the two words `"aaaa"` and
`" bbb"` at width 4 trims the leading space of `" bbb"` when it moves to
a fresh line.  The output contains no hyphen characters at all, so
stripping inserted trailing hyphens changes nothing, yet the
concatenated output `"aaaabbb"` differs from the concatenated input
`"aaaa bbb"`. -/
theorem C1_word_wrapping_counterexample :
    lines_content (word_wrapping
        [Word.new ("aaaa".data) .Normal, Word.new (" bbb".data) .Normal]
        4 true) = ("aaaabbb".data) ∧
    ('-' ∉ lines_content (word_wrapping
        [Word.new ("aaaa".data) .Normal, Word.new (" bbb".data) .Normal]
        4 true)) ∧
    words_content
        [Word.new ("aaaa".data) .Normal, Word.new (" bbb".data) .Normal]
      = ("aaaa bbb".data) ∧
    ("aaaabbb".data) ≠ ("aaaa bbb".data) := by
  refine ⟨by decide, by decide, by decide, by decide⟩

/-- C1 (corrected): for every word sequence and every width ≥ 1, the
concatenated content of the output of `word_wrapping` is obtained from
the concatenated content of the input by deleting whitespace characters
(the leading-space/newline trimming at line starts) and inserting hyphen
characters (the hyphenation of split words); in particular no other
character is lost, duplicated, or reordered.  The original claim — that
stripping inserted trailing hyphens reproduces the input exactly — fails
because of the leading-whitespace trimming (see
`C1_word_wrapping_counterexample`). -/
theorem C1_word_wrapping_content (words : List Word) (width : Nat)
    (allow_hyphen : Bool) (hw : 1 ≤ width) :
    WrapRel (words_content words)
      (lines_content (word_wrapping words width allow_hyphen)) := by
  obtain ⟨rest, hres, hrel⟩ := word_wrapping_go_spec width
    (allow_hyphen && decide (4 < width)) words [] [] 0
  rw [word_wrapping, hres]
  simpa [lines_content_nil, words_content_nil] using hrel

/-- Witness for C1 at two concrete words and width 5. -/
theorem C1_word_wrapping_content_witness :
    (1 ≤ 5) ∧
    WrapRel (words_content
        [Word.new ("hello".data) .Normal, Word.new (" wrapping".data) .Bold])
      (lines_content (word_wrapping
        [Word.new ("hello".data) .Normal, Word.new (" wrapping".data) .Bold]
        5 true)) :=
  ⟨by omega, C1_word_wrapping_content
    [Word.new ("hello".data) .Normal, Word.new (" wrapping".data) .Bold]
    5 true (by omega)⟩

/-- The `TextNode` enum of src/nodes/textcomponent.rs; `Table` carries
the per-column widths and per-row heights. -/
inductive TextNode where
  | Image | Paragraph | LineBreak | Heading | Task | List | Footnote
  | Table : List Nat → List Nat → TextNode
  | CodeBlock | Quote | HorizontalSeparator
deriving DecidableEq

/-- The `TextComponent` struct of src/nodes/textcomponent.rs. -/
structure TextComponent where
  kind : TextNode
  content : List (List Word)
  meta_info : List Word
  height : Nat
  offset : Nat
  scroll_offset : Nat
  focused : Bool
  focused_index : Nat
deriving DecidableEq

/-- `TextComponent::new` (lines 46–65): partition a flat word list into
renderable content (one unsplit line) and the meta side channel;
footnote-reference markers go to both. -/
def TextComponent.new (kind : TextNode) (content : List Word) :
    TextComponent :=
  { kind := kind,
    content := [content.filter (fun w => w.is_renderable)],
    meta_info := content.filter
      (fun c => !c.is_renderable || decide (c.kind = .FootnoteInline)),
    height := 0, offset := 0, scroll_offset := 0,
    focused := false, focused_index := 0 }

/-- `TextComponent::new_formatted` (lines 68–92): pre-split input; only
non-renderable words go to meta, lines are filtered to renderable words,
empty lines dropped, height = number of remaining lines. -/
def TextComponent.new_formatted (kind : TextNode)
    (content : List (List Word)) : TextComponent :=
  let meta := content.flatten.filter (fun c => !c.is_renderable)
  let content2 := (content.map (fun c =>
    c.filter (fun w => w.is_renderable))).filter (fun c => !c.isEmpty)
  { kind := kind, height := content2.length, meta_info := meta,
    content := content2, offset := 0, scroll_offset := 0,
    focused := false, focused_index := 0 }

/-- `TextComponent::num_links` (lines 273–278): count of link-target and
footnote-reference entries in the meta side channel. -/
def TextComponent.num_links (c : TextComponent) : Nat :=
  c.meta_info.countP
    (fun w => decide (w.kind = .LinkData) || decide (w.kind = .FootnoteInline))

/-- `TextComponent::is_indented_list` (lines 101–111): a List block whose
first all-whitespace meta word (`trim().is_empty()`) is non-empty. -/
def TextComponent.is_indented_list (c : TextComponent) : Bool :=
  decide (c.kind = .List) &&
    (match c.meta_info.find? (fun w => w.content.all rust_is_whitespace) with
     | some w => !w.content.isEmpty
     | none => false)

/-- `TextComponent::deselect` (lines 197–207): drop focus and restore
every currently `Selected` word. -/
def TextComponent.deselect (c : TextComponent) : TextComponent :=
  { c with
    focused := false
    focused_index := 0
    content := c.content.map (fun l => l.map
      (fun w => if w.kind = .Selected then w.clear_kind else w)) }

/-- A word counted by `link_words_mut`'s grouping: current kind `Link`
or `FootnoteInline`. -/
def link_like (w : Word) : Bool :=
  decide (w.kind = .Link) || decide (w.kind = .FootnoteInline)

/-- Number of maximal runs of link-like words, as grouped by
`link_words_mut` (lines 232–249): the peekable/`take_while` loop
collects exactly the maximal consecutive runs of link-like words of the
flattened content (the `take_while` also consumes the single non-link
word terminating a run, which the outer `peek` loop would have skipped
anyway).  `prev` records whether the previous word was link-like. -/
def link_runs_count_go (prev : Bool) : List Word → Nat
  | [] => 0
  | w :: ws =>
    if link_like w then
      (if prev then 0 else 1) + link_runs_count_go true ws
    else link_runs_count_go false ws

def link_runs_count (ws : List Word) : Nat := link_runs_count_go false ws

/-- Re-tag every word of the `n`-th maximal run of link-like words to
`Selected` (`visually_select`, lines 221–228: `link_words_mut().get_mut(index)`
then `set_kind(WordType::Selected)` on each word of that run).  `k` is
the index of the next run to start, `prev` as in `link_runs_count_go`;
inside a run the current run's index is `k - 1`. -/
def link_runs_mark_go (n k : Nat) (prev : Bool) : List Word → List Word
  | [] => []
  | w :: ws =>
    if link_like w then
      if prev then
        (if k - 1 = n then w.set_kind .Selected else w)
          :: link_runs_mark_go n k true ws
      else
        (if k = n then w.set_kind .Selected else w)
          :: link_runs_mark_go n (k + 1) true ws
    else w :: link_runs_mark_go n k false ws

def link_runs_mark (n : Nat) (ws : List Word) : List Word :=
  link_runs_mark_go n 0 false ws

/-- Distribute a flat word list back into lines of the given lengths.
The Rust `link_words_mut` marks words in place through mutable
references, leaving the line structure unchanged; marking the flattened
list and re-chunking it by the original line lengths is the same
operation. -/
def reshape (shape : List Nat) (flat : List Word) : List (List Word) :=
  match shape with
  | [] => []
  | n :: ns => flat.take n :: reshape ns (flat.drop n)

/-- `TextComponent::visually_select` (lines 209–230).  The focus flag and
index are set before the bounds check, so they are mutated even on the
error path.  The first error is the formatted bounds message; the second
(`get_mut(index).ok_or(...)`) is the plain `"index out of bounds"` when
the content has fewer link runs than the meta has link entries. -/
def TextComponent.visually_select (c : TextComponent) (index : Nat) :
    Except String Unit × TextComponent :=
  let c := { c with focused := true, focused_index := index }
  if c.num_links ≤ index then
    (.error ("Index out of bounds: " ++ toString index ++ " >= "
       ++ toString c.num_links), c)
  else if link_runs_count c.content.flatten ≤ index then
    (.error "index out of bounds", c)
  else
    (.ok (), { c with
      content := reshape (c.content.map (fun l => l.length))
        (link_runs_mark index c.content.flatten) })

/-- Modelled from the spec: the media block (src/nodes/image.rs is not
among the sources under study).  Spec §3/§6: an opaque block contributing
only height/offset/kind, honoring the three-operation contract (report
height, accept a y-offset, accept a scroll-offset); its kind is the
`Image` block kind. -/
structure ImageComponent where
  height : Nat
  offset : Nat
  scroll_offset : Nat
deriving DecidableEq

/-- The `Component` enum of src/nodes/root.rs. -/
inductive Component where
  | text : TextComponent → Component
  | image : ImageComponent → Component
deriving DecidableEq

/-- `ComponentProps::kind` for `Component` (lines 370–375); the media
block's kind is modelled from the spec as `Image`. -/
def Component.kind : Component → TextNode
  | .text c => c.kind
  | .image _ => .Image

/-- Projection used by the `filter_map` pattern in src/nodes/root.rs. -/
def text_component? : Component → Option TextComponent
  | .text tc => some tc
  | .image _ => none

/-- The `ComponentRoot` struct of src/nodes/root.rs. -/
structure ComponentRoot where
  file_name : Option (List Char)
  components : List Component
  is_focused : Bool
deriving DecidableEq

/-- `ComponentRoot::num_links` (lines 318–327). -/
def ComponentRoot.num_links (r : ComponentRoot) : Nat :=
  ((r.components.filterMap text_component?).map TextComponent.num_links).sum

/-- `ComponentRoot::words` (lines 61–70): all renderable content words of
all text blocks, in order. -/
def ComponentRoot.all_words (r : ComponentRoot) : List Word :=
  (r.components.filterMap text_component?).flatMap
    (fun tc => tc.content.flatten)

/-- Deselect one component (images untouched). -/
def comp_deselect : Component → Component
  | .text tc => .text tc.deselect
  | .image i => .image i

/-- `ComponentRoot::deselect` (lines 124–132). -/
def ComponentRoot.deselect (r : ComponentRoot) : ComponentRoot :=
  { r with
    is_focused := false
    components := r.components.map comp_deselect }

/-- Loop of `ComponentRoot::select` (lines 106–122), carrying the running
link count.  The Rust computes `index - count` on `usize`; along the
loop `count ≤ index` always holds (`count` only advances past components
whose whole link range lies below `index`), so the truncated `Nat`
subtraction agrees with the Rust value. -/
def select_go (index : Nat) (count : Nat) :
    List Component → Except String Nat × List Component
  | [] => (.error ("Index out of bounds: " ++ toString index ++ " >= "
       ++ toString count), [])
  | .image i :: rest =>
      let p := select_go index count rest
      (p.1, .image i :: p.2)
  | .text tc :: rest =>
      if index - count < tc.num_links then
        let p := tc.visually_select (index - count)
        match p.1 with
        | .ok _ => (.ok p.2.offset, .text p.2 :: rest)
        | .error e => (.error e, .text p.2 :: rest)
      else
        let p := select_go index (count + tc.num_links) rest
        (p.1, .text tc :: p.2)

/-- `ComponentRoot::select` (lines 106–122): deselect everything, focus
the document, then delegate to the owning block.  Mutations performed
before an error (the global deselect, a partially-failed
`visually_select`) persist, as they do through `&mut self` in Rust. -/
def ComponentRoot.select (r : ComponentRoot) (index : Nat) :
    Except String Nat × ComponentRoot :=
  let r := r.deselect
  let r := { r with is_focused := true }
  let p := select_go index 0 r.components
  (p.1, { r with components := p.2 })

/-- C10 (confirmed): calling `visually_select` with an index at or above
the block's link count returns the formatted out-of-bounds error, but the
block's `focused` flag and `focused_index` have already been set before
the bounds check — the selection state is mutated even on the error path;
the error is not atomic. -/
theorem C10_visually_select_mutates_on_error (c : TextComponent) (i : Nat)
    (h : c.num_links ≤ i) :
    c.visually_select i =
      (.error ("Index out of bounds: " ++ toString i ++ " >= "
         ++ toString c.num_links),
       { c with focused := true, focused_index := i }) := by
  unfold TextComponent.visually_select
  dsimp only
  split
  · rfl
  · rename_i hcond
    exact absurd h hcond

/-- Witness for C10: a paragraph with no links, selected at index 0. -/
theorem C10_visually_select_mutates_on_error_witness :
    (TextComponent.new .Paragraph [Word.new ("hi".data) .Normal]).num_links
        ≤ 0 ∧
    (TextComponent.new .Paragraph
        [Word.new ("hi".data) .Normal]).visually_select 0 =
      (.error ("Index out of bounds: " ++ toString 0 ++ " >= "
         ++ toString (TextComponent.new .Paragraph
             [Word.new ("hi".data) .Normal]).num_links),
       { TextComponent.new .Paragraph [Word.new ("hi".data) .Normal] with
          focused := true
          focused_index := 0 }) :=
  ⟨by decide, C10_visually_select_mutates_on_error
    (TextComponent.new .Paragraph [Word.new ("hi".data) .Normal]) 0
    (by decide)⟩

theorem deselect_num_links (tc : TextComponent) :
    tc.deselect.num_links = tc.num_links := rfl

theorem text_component_cons_text (tc : TextComponent)
    (rest : List Component) :
    (Component.text tc :: rest).filterMap text_component?
      = tc :: rest.filterMap text_component? := by
  simp [text_component?]

theorem text_component_cons_image (i : ImageComponent)
    (rest : List Component) :
    (Component.image i :: rest).filterMap text_component?
      = rest.filterMap text_component? := by
  simp [text_component?]

theorem links_map_deselect (comps : List Component) :
    ((comps.map comp_deselect).filterMap text_component?).map
        TextComponent.num_links
      = (comps.filterMap text_component?).map TextComponent.num_links := by
  induction comps with
  | nil => rfl
  | cons c rest ih =>
      cases c with
      | text tc =>
          rw [List.map_cons]
          show ((Component.text tc.deselect ::
              rest.map comp_deselect).filterMap text_component?).map _ = _
          rw [text_component_cons_text, text_component_cons_text,
            List.map_cons, List.map_cons, ih, deselect_num_links]
      | image i =>
          rw [List.map_cons]
          show ((Component.image i ::
              rest.map comp_deselect).filterMap text_component?).map _ = _
          rw [text_component_cons_image, text_component_cons_image, ih]

theorem root_deselect_num_links (r : ComponentRoot) :
    r.deselect.num_links = r.num_links := by
  show (((r.components.map comp_deselect).filterMap text_component?).map
      TextComponent.num_links).sum = _
  rw [links_map_deselect]
  rfl

theorem select_go_oob (index : Nat) :
    ∀ (comps : List Component) (count : Nat),
      count + ((comps.filterMap text_component?).map
          TextComponent.num_links).sum ≤ index →
      (select_go index count comps).1 =
        .error ("Index out of bounds: " ++ toString index ++ " >= "
          ++ toString (count + ((comps.filterMap text_component?).map
              TextComponent.num_links).sum)) := by
  intro comps
  induction comps with
  | nil =>
      intro count hc
      simp [select_go, text_component?]
  | cons c rest ih =>
      intro count hc
      cases c with
      | image i =>
          simp only [select_go]
          have := ih count (by simpa [text_component?] using hc)
          simpa [text_component?] using this
      | text tc =>
          rw [text_component_cons_text, List.map_cons, List.sum_cons] at hc
          simp only [select_go]
          have hng : ¬ (index - count < tc.num_links) := by omega
          rw [if_neg hng]
          have := ih (count + tc.num_links)
            (by rw [Nat.add_assoc]; exact hc)
          rw [text_component_cons_text, List.map_cons, List.sum_cons]
          rw [this, Nat.add_assoc]

/-- C4 (confirmed): for every document and every index at or above the
document's total link count, `select(i)` returns the out-of-bounds error
reporting the index and the total link count (the loop's final running
count), and never succeeds. -/
theorem C4_select_out_of_bounds (r : ComponentRoot) (i : Nat)
    (h : r.num_links ≤ i) :
    (r.select i).1 = .error ("Index out of bounds: " ++ toString i
        ++ " >= " ++ toString r.num_links) := by
  unfold ComponentRoot.select
  simp only
  have hlinks : ((r.deselect.components.filterMap text_component?).map
      TextComponent.num_links).sum = r.num_links := root_deselect_num_links r
  have := select_go_oob i r.deselect.components 0
    (by rw [hlinks]; omega)
  rw [Nat.zero_add] at this
  rw [hlinks] at this
  exact this

/-- Witness for C4: one paragraph with a single link, selected at 5. -/
theorem C4_select_out_of_bounds_witness :
    (ComponentRoot.mk none
        [.text (TextComponent.new .Paragraph
          [Word.new ("go".data) .Link, Word.new ("url".data) .LinkData])]
        false).num_links ≤ 5 ∧
    ((ComponentRoot.mk none
        [.text (TextComponent.new .Paragraph
          [Word.new ("go".data) .Link, Word.new ("url".data) .LinkData])]
        false).select 5).1 =
      .error ("Index out of bounds: " ++ toString 5 ++ " >= "
        ++ toString (ComponentRoot.mk none
          [.text (TextComponent.new .Paragraph
            [Word.new ("go".data) .Link, Word.new ("url".data) .LinkData])]
          false).num_links) :=
  ⟨by decide, C4_select_out_of_bounds _ 5 (by decide)⟩

/-- Relation between a word list and its marked version: each word is
either untouched or re-tagged to `Selected` (saving its prior kind). -/
def marked_rel (w w' : Word) : Prop :=
  w' = w ∨ w' = w.set_kind .Selected

theorem link_runs_mark_go_rel (n : Nat) :
    ∀ (ws : List Word) (k : Nat) (b : Bool),
      List.Forall₂ marked_rel ws (link_runs_mark_go n k b ws) := by
  intro ws
  induction ws with
  | nil => intro k b; simp [link_runs_mark_go]
  | cons w rest ih =>
      intro k b
      simp only [link_runs_mark_go]
      split
      · split
        · refine List.Forall₂.cons ?_ (ih k true)
          split
          · exact Or.inr rfl
          · exact Or.inl rfl
        · refine List.Forall₂.cons ?_ (ih (k + 1) true)
          split
          · exact Or.inr rfl
          · exact Or.inl rfl
      · exact List.Forall₂.cons (Or.inl rfl) (ih k false)

theorem marked_rel_refl (ws : List Word) :
    List.Forall₂ marked_rel ws ws := by
  induction ws with
  | nil => simp
  | cons w rest ih => exact List.Forall₂.cons (Or.inl rfl) ih

theorem deselect_kinds_marked :
    ∀ (orig new : List Word),
      List.Forall₂ marked_rel orig new →
      (∀ w ∈ orig, w.kind ≠ .Selected) →
      (new.map (fun w => if w.kind = .Selected then w.clear_kind else w)).map
          Word.kind
        = orig.map Word.kind := by
  intro orig
  induction orig with
  | nil =>
      intro new hrel _
      cases hrel
      rfl
  | cons w ws ih =>
      intro new hrel hsel
      cases hrel with
      | cons hw htl =>
          rename_i w' ws'
          have htail := ih ws' htl (fun x hx => hsel x (by simp [hx]))
          simp only [List.map_cons, htail]
          congr 1
          rcases hw with h | h
          · rw [h, if_neg (hsel w (by simp))]
          · rw [h]
            simp [Word.set_kind, Word.kind, Word.clear_kind]

theorem reshape_flatten :
    ∀ (shape : List Nat) (flat : List Word), flat.length = shape.sum →
      (reshape shape flat).flatten = flat := by
  intro shape
  induction shape with
  | nil =>
      intro flat hlen
      simp only [List.sum_nil] at hlen
      rw [List.length_eq_zero] at hlen
      subst hlen
      simp [reshape]
  | cons n ns ih =>
      intro flat hlen
      rw [List.sum_cons] at hlen
      simp only [reshape, List.flatten_cons]
      rw [ih (flat.drop n) (by rw [List.length_drop]; omega)]
      exact List.take_append_drop n flat

theorem deselect_content_flatten (c : TextComponent) :
    c.deselect.content.flatten
      = c.content.flatten.map
          (fun w => if w.kind = .Selected then w.clear_kind else w) := by
  show (c.content.map _).flatten = _
  rw [List.map_flatten]

theorem visually_select_deselect_kinds (c : TextComponent) (i : Nat)
    (hsel : ∀ w ∈ c.content.flatten, w.kind ≠ .Selected) :
    ((c.visually_select i).2.deselect).content.flatten.map Word.kind
      = c.content.flatten.map Word.kind := by
  unfold TextComponent.visually_select
  dsimp only
  split
  · rw [deselect_content_flatten]
    exact deselect_kinds_marked _ _ (marked_rel_refl _) hsel
  · split
    · rw [deselect_content_flatten]
      exact deselect_kinds_marked _ _ (marked_rel_refl _) hsel
    · rw [deselect_content_flatten]
      have hrel : List.Forall₂ marked_rel c.content.flatten
          (link_runs_mark i c.content.flatten) :=
        link_runs_mark_go_rel i (c.content.flatten) 0 false
      have hlen : (link_runs_mark i c.content.flatten).length
          = (c.content.map (fun l => l.length)).sum := by
        rw [← hrel.length_eq]
        simpa using (List.length_flatten c.content).symm
      show ((reshape (c.content.map (fun l => l.length))
          (link_runs_mark i c.content.flatten)).flatten.map _).map _ = _
      rw [reshape_flatten _ _ hlen]
      exact deselect_kinds_marked _ _ hrel hsel

/-- All renderable content words of a component list, as in
`ComponentRoot::words`. -/
def comps_words (comps : List Component) : List Word :=
  (comps.filterMap text_component?).flatMap (fun tc => tc.content.flatten)

theorem comps_words_cons_text (tc : TextComponent) (rest : List Component) :
    comps_words (.text tc :: rest)
      = tc.content.flatten ++ comps_words rest := by
  simp [comps_words, text_component_cons_text]

theorem comps_words_cons_image (i : ImageComponent)
    (rest : List Component) :
    comps_words (.image i :: rest) = comps_words rest := by
  simp [comps_words, text_component_cons_image]

theorem deselect_content_noSel (c : TextComponent)
    (hsel : ∀ w ∈ c.content.flatten, w.kind ≠ .Selected) :
    c.deselect.content = c.content := by
  show c.content.map _ = c.content
  refine List.map_congr_left ?_ |>.trans (List.map_id _)
  intro l hl
  refine List.map_congr_left ?_ |>.trans (List.map_id _)
  intro w hw
  rw [if_neg (hsel w (by rw [List.mem_flatten]; exact ⟨l, hl, hw⟩))]
  rfl

theorem comps_words_deselect (comps : List Component)
    (hsel : ∀ w ∈ comps_words comps, w.kind ≠ .Selected) :
    comps_words (comps.map comp_deselect) = comps_words comps := by
  induction comps with
  | nil => rfl
  | cons c rest ih =>
      cases c with
      | text tc =>
          rw [comps_words_cons_text] at hsel
          rw [List.map_cons]
          show comps_words (.text tc.deselect :: rest.map comp_deselect) = _
          rw [comps_words_cons_text, comps_words_cons_text]
          rw [deselect_content_noSel tc
            (fun w hw => hsel w (by simp [hw]))]
          rw [ih (fun w hw => hsel w (by simp [hw]))]
      | image i =>
          rw [comps_words_cons_image] at hsel
          rw [List.map_cons]
          show comps_words (.image i :: rest.map comp_deselect) = _
          rw [comps_words_cons_image, comps_words_cons_image]
          exact ih hsel

theorem select_go_restore (i : Nat) :
    ∀ (comps : List Component) (count : Nat),
      (∀ w ∈ comps_words comps, w.kind ≠ .Selected) →
      (comps_words (((select_go i count comps).2).map comp_deselect)).map
          Word.kind
        = (comps_words comps).map Word.kind := by
  intro comps
  induction comps with
  | nil => intro count _; rfl
  | cons c rest ih =>
      intro count hsel
      cases c with
      | image im =>
          rw [comps_words_cons_image] at hsel
          simp only [select_go]
          rw [List.map_cons]
          show (comps_words (.image im :: _)).map _ = _
          rw [comps_words_cons_image, comps_words_cons_image]
          exact ih count hsel
      | text tc =>
          rw [comps_words_cons_text] at hsel
          have hsel_tc : ∀ w ∈ tc.content.flatten, w.kind ≠ .Selected :=
            fun w hw => hsel w (by simp [hw])
          have hsel_rest : ∀ w ∈ comps_words rest, w.kind ≠ .Selected :=
            fun w hw => hsel w (by simp [hw])
          simp only [select_go]
          split
          · -- this block owns the index: visually_select it
            rcases hp : (tc.visually_select (i - count)).1 with e | u
            all_goals (
              simp only [hp]
              rw [List.map_cons]
              first
              | show (comps_words (.text ((tc.visually_select
                    (i - count)).2).deselect :: rest.map comp_deselect)).map
                    Word.kind = _
              rw [comps_words_cons_text, comps_words_cons_text,
                List.map_append, List.map_append]
              rw [visually_select_deselect_kinds tc (i - count) hsel_tc]
              rw [comps_words_deselect rest hsel_rest])
          · -- not in this block: it is only deselected at the end
            rw [List.map_cons]
            show (comps_words (.text tc.deselect ::
                ((select_go i (count + tc.num_links) rest).2).map
                  comp_deselect)).map Word.kind = _
            rw [comps_words_cons_text, comps_words_cons_text,
              List.map_append, List.map_append]
            rw [deselect_content_noSel tc hsel_tc]
            rw [ih (count + tc.num_links) hsel_rest]

/-- C5 (confirmed): for every document in which no word is currently in
the transient `Selected` state and every valid link index `i`,
`select(i)` followed by the document-level `deselect()` restores every
word's kind — in particular every word re-tagged by the selection
returns to its pre-selection kind, and no other word's kind changes.
(The no-`Selected` hypothesis pins down "pre-selection kind": a word
already mid-highlight before the call is restored to its saved prior
kind, which is what the selection overwrote.) -/
theorem C5_select_deselect_restores (r : ComponentRoot) (i : Nat)
    (hvalid : i < r.num_links)
    (hsel : ∀ w ∈ r.all_words, w.kind ≠ .Selected) :
    ((r.select i).2.deselect).all_words.map Word.kind
      = r.all_words.map Word.kind := by
  have hwords : comps_words (r.components.map comp_deselect)
      = comps_words r.components := comps_words_deselect r.components hsel
  have hrestore := select_go_restore i (r.components.map comp_deselect) 0
    (by rw [hwords]; exact hsel)
  show (comps_words ((select_go i 0
      (r.components.map comp_deselect)).2.map comp_deselect)).map Word.kind
    = (comps_words r.components).map Word.kind
  rw [hrestore, hwords]

/-- Witness for C5: a paragraph with one link, selected at index 0. -/
theorem C5_select_deselect_restores_witness :
    (0 < (ComponentRoot.mk none
        [.text (TextComponent.new .Paragraph
          [Word.new ("go".data) .Link, Word.new ("u".data) .LinkData])]
        false).num_links) ∧
    (∀ w ∈ (ComponentRoot.mk none
        [.text (TextComponent.new .Paragraph
          [Word.new ("go".data) .Link, Word.new ("u".data) .LinkData])]
        false).all_words, w.kind ≠ .Selected) ∧
    (((ComponentRoot.mk none
        [.text (TextComponent.new .Paragraph
          [Word.new ("go".data) .Link, Word.new ("u".data) .LinkData])]
        false).select 0).2.deselect).all_words.map Word.kind
      = (ComponentRoot.mk none
        [.text (TextComponent.new .Paragraph
          [Word.new ("go".data) .Link, Word.new ("u".data) .LinkData])]
        false).all_words.map Word.kind :=
  ⟨by decide, by decide,
    C5_select_deselect_restores _ 0 (by decide) (by decide)⟩

/-- The empty synthetic line-break block inserted by
`add_missing_components` (`TextComponent::new(TextNode::LineBreak, Vec::new())`,
lines 296–301 of src/nodes/root.rs). -/
def line_break_component : Component :=
  .text (TextComponent.new .LineBreak [])

/-- `matches!(next, Component::TextComponent(tc) if tc.is_indented_list())`
(lines 289–293 of src/nodes/root.rs): false for media blocks. -/
def is_indented_list_c : Component → Bool
  | .text tc => tc.is_indented_list
  | .image _ => false

/-- Loop of `ComponentRoot::add_missing_components` (lines 276–310 of
src/nodes/root.rs): push each component, and between it and a peeked next
component insert a line break when both are non-line-break, unless the
pair is a Task followed by an indented List. -/
def amc_go : List Component → List Component
  | [] => []
  | c :: rest =>
    let insert_lb : Bool := match rest.head? with
      | none => false
      | some next =>
          decide (¬ c.kind = .LineBreak) &&
          decide (¬ next.kind = .LineBreak) &&
          !(decide (c.kind = .Task) && is_indented_list_c next)
    c :: ((if insert_lb then [line_break_component] else []) ++ amc_go rest)

/-- `ComponentRoot::add_missing_components`. -/
def ComponentRoot.add_missing_components (r : ComponentRoot) :
    ComponentRoot :=
  { r with components := amc_go r.components }

/-- Spec-side definition for C6, following the spec's words (§4.7): a
synthetic line break belongs between adjacent blocks `c, d` iff both are
non-line-break and the pair is not a Task followed by an indented List. -/
def needs_line_break (c d : Component) : Bool :=
  decide (¬ c.kind = .LineBreak) && decide (¬ d.kind = .LineBreak) &&
  !(decide (c.kind = .Task) && is_indented_list_c d)

/-- Spec-side definition for C6: insert `line_break_component` between
every adjacent pair that `needs_line_break`, keep every original block in
order, insert nothing else. -/
def add_missing_spec : List Component → List Component
  | [] => []
  | [c] => [c]
  | c :: d :: tl =>
      c :: ((if needs_line_break c d then [line_break_component] else [])
        ++ add_missing_spec (d :: tl))

theorem amc_go_eq_spec : ∀ comps, amc_go comps = add_missing_spec comps := by
  intro comps
  induction comps with
  | nil => rfl
  | cons c rest ih =>
      cases rest with
      | nil => rfl
      | cons d tl =>
          simp only [amc_go, add_missing_spec, List.head?_cons,
            needs_line_break]
          rw [← ih]
          rfl

theorem amc_go_sublist :
    ∀ comps : List Component, comps.Sublist (amc_go comps) := by
  intro comps
  induction comps with
  | nil => exact List.Sublist.refl []
  | cons c rest ih =>
      simp only [amc_go]
      exact List.Sublist.cons₂ c (ih.trans (List.sublist_append_right _ _))

/-- C6 (confirmed): `add_missing_components` produces exactly the
spec-described insertion — an empty synthetic line-break block between
every pair of adjacent blocks that are both non-line-break, except
between a Task block and an immediately following indented List block —
and the original blocks form a sublist of the result in their original
order (nothing is removed or reordered; only line breaks are added). -/
theorem C6_add_missing_components (r : ComponentRoot) :
    r.add_missing_components
        = { r with components := add_missing_spec r.components } ∧
      r.components.Sublist r.add_missing_components.components := by
  constructor
  · show ({ r with components := amc_go r.components } : ComponentRoot) = _
    rw [amc_go_eq_spec]
  · exact amc_go_sublist r.components

/-- Document used by the C8 counterexample: a single Footnote block with
id `"1"` whose body words are not of the footnote-body kind. -/
def c8_doc : ComponentRoot :=
  ComponentRoot.mk none
    [.text (TextComponent.new .Footnote
      [Word.new ("1".data) .FootnoteData, Word.new ("x".data) .Normal])]
    false

/-- `ComponentRoot::find_footnote` (lines 135–166 of src/nodes/root.rs):
scan Footnote blocks whose first meta entry matches, concatenate their
content words of kind `Footnote`, and fall back to the literal string
`"Footnote not found"` whenever the accumulated string is empty. -/
def ComponentRoot.find_footnote (r : ComponentRoot) (search : List Char) :
    List Char :=
  let footnote :=
    (((((r.components.filterMap (fun f => match f with
        | .text tc => if tc.kind = .Footnote then some tc else none
        | .image _ => none))).filter
        (fun f => match f.meta_info.head? with
          | some w => decide (w.content = search)
          | none => false)).flatMap
        (fun f => f.content.flatten)).filter
        (fun w => decide (w.kind = .Footnote))).flatMap Word.content
  if footnote.isEmpty then ("Footnote not found".data) else footnote

/-- Spec-side definition for C8, following the claim's words: the
concatenation of the footnote-body words (kind `Footnote`) of the
Footnote blocks whose first meta entry's content equals the id. -/
def footnote_concat (r : ComponentRoot) (search : List Char) : List Char :=
  (((((r.components.filterMap (fun f => match f with
      | .text tc => if tc.kind = .Footnote then some tc else none
      | .image _ => none))).filter
      (fun f => match f.meta_info.head? with
        | some w => decide (w.content = search)
        | none => false)).flatMap
      (fun f => f.content.flatten)).filter
      (fun w => decide (w.kind = .Footnote))).flatMap Word.content

/-- Counterexample to C8 as stated: on `c8_doc` the only footnote block
matches id `"1"`, so by the claim `find_footnote("1")` should return the
(empty) concatenation of its footnote-body words; the code instead
returns the sentinel `"Footnote not found"` because it tests emptiness
of the accumulated string, not whether a block matched. -/
theorem C8_find_footnote_counterexample :
    c8_doc.find_footnote ("1".data) = ("Footnote not found".data) ∧
    footnote_concat c8_doc ("1".data) = [] ∧
    ("Footnote not found".data : List Char) ≠ [] := by
  refine ⟨by decide, by decide, by decide⟩

/-- C8 (corrected): `find_footnote(id)` returns the concatenation of the
footnote-body words of the Footnote blocks whose first meta entry's
content equals `id` whenever that concatenation is non-empty, and
returns the literal string `"Footnote not found"` as an ordinary value
exactly when the concatenation is empty — including when a matching
footnote block exists but contributes no body text — and never an
error. -/
theorem C8_find_footnote (r : ComponentRoot) (search : List Char) :
    r.find_footnote search =
      (if footnote_concat r search = [] then ("Footnote not found".data)
       else footnote_concat r search) := by
  show (if (footnote_concat r search).isEmpty then ("Footnote not found".data)
      else footnote_concat r search) = _
  by_cases h : footnote_concat r search = []
  · rw [if_pos h, if_pos (by rw [h]; rfl)]
  · rw [if_neg h, if_neg (by simp [List.isEmpty_iff, h])]

/-- Rust slice `chunks(n)`: split into consecutive chunks of `n`, the
last possibly shorter.  `chunks(0)` panics in Rust; it is never reached
by the code under study (the column count is checked first), and the
guard returns `[]` there only to keep the function total.  The recursion
is driven by a fuel argument initialised to the list length, which
always suffices: every step with `n ≥ 1` consumes at least one
element. -/
def list_chunks_go {α : Type} (n : Nat) : Nat → List α → List (List α)
  | _, [] => []
  | 0, _ => []
  | fuel + 1, x :: xs =>
      if 0 < n then
        (x :: xs).take n :: list_chunks_go n fuel ((x :: xs).drop n)
      else []

def list_chunks {α : Type} (n : Nat) (l : List α) : List (List α) :=
  list_chunks_go n l.length l

/-- `TextComponent::content_as_lines` (lines 119–145 of
src/nodes/textcomponent.rs). -/
def content_as_lines (c : TextComponent) : List (List Char) :=
  match c.kind with
  | .Table widths _ =>
      let column_count := widths.length
      if column_count = 0 then []
      else (list_chunks column_count c.content).map (fun line =>
        List.intercalate (" ".data)
          (line.map (fun cell => (cell.map Word.content).flatten)))
  | _ => c.content.map (fun line => (line.map Word.content).flatten)

/-- `TextComponent::content_as_bytes` (lines 148–157); bytes are kept as
characters (the code under study never splits the result inside a
character). -/
def content_as_bytes (c : TextComponent) : List Char :=
  match c.kind with
  | .CodeBlock => (content_as_lines c).flatten
  | _ => List.intercalate ('\n' :: []) (content_as_lines c)

/-- Core of `transform_paragraph` (lines 469–489), after the per-kind
width deduction: wrap, and for quotes prepend a space to every line past
the admonition header (`skip(usize::from(is_special_quote))`). -/
def transform_paragraph_core (c : TextComponent) (w : Nat) : TextComponent :=
  let lines := word_wrapping c.content.flatten w true
  let lines := if c.kind = .Quote then
      let skip := if c.meta_info.isEmpty then 0 else 1
      lines.mapIdx (fun i l =>
        if skip ≤ i then Word.new (" ".data) .Normal :: l else l)
    else lines
  { c with height := lines.length, content := lines }

/-- `transform_paragraph` (lines 469–489).  The width deductions are
`usize` subtractions (truncated here; a Rust debug build would panic for
widths below the deduction); any other kind is `unreachable!`, modelled
as `none`. -/
def transform_paragraph (c : TextComponent) (width : Nat) :
    Option TextComponent :=
  match c.kind with
  | .Paragraph => some (transform_paragraph_core c (width - 1))
  | .Task => some (transform_paragraph_core c (width - 4))
  | .Quote => some (transform_paragraph_core c (width - 2))
  | _ => none

/-- Highlight events of the external `tree-sitter-highlight`
collaborator (spec §4.6/§6). -/
inductive HighlightEvent where
  | source : Nat → Nat → HighlightEvent
  | highlight_start : Nat → HighlightEvent
  | highlight_end : HighlightEvent

/-- Result of the external `highlight_code` collaborator. -/
inductive HighlightInfo where
  | highlighted : List HighlightEvent → HighlightInfo
  | unhighlighted : HighlightInfo

/-- Event loop of `transform_codeblock` (lines 512–525): build colored
word spans from source ranges under the running color; returns the spans
and the final color (used for the trailing empty word, line 554).  Byte
offsets into the content are modelled as character offsets (the
highlighter contract emits ranges on character boundaries). -/
def hl_spans (color_map : Nat → Color) (content : List Char) :
    List HighlightEvent → Color → List Word × Color
  | [], color => ([], color)
  | .source s e :: rest, color =>
      let r := hl_spans color_map content rest color
      (Word.new ((content.drop s).take (e - s)) (.CodeBlock color) :: r.1,
        r.2)
  | .highlight_start i :: rest, _ =>
      hl_spans color_map content rest (color_map i)
  | .highlight_end :: rest, _ => hl_spans color_map content rest .reset

/-- Per-word newline re-split of `transform_codeblock` (lines 530–552),
iterating over the word's characters with their indices.  The Rust
compares the byte index `i` with `content.len() - 1` (byte length); at
the character level modelled here the comparison is exact when the final
character is single-byte — the only difference is that Rust drops the
final fragment after the last newline when the last character is
multi-byte, which no claim under study observes (only line counts
matter, and this branch never closes a line). -/
def split_nl_go (k : WordType) (content : List Char) :
    Nat → List Word → List (List Word) → List (Nat × Char) →
      List Word × List (List Word)
  | _, inner, final, [] => (inner, final)
  | start, inner, final, (i, ch) :: rest =>
    if ch = '\n' then
      split_nl_go k content (i + 1) []
        (final ++ [inner ++ [Word.new ((content.drop start).take (i - start)) k]])
        rest
    else if i = content.length - 1 then
      split_nl_go k content start
        (inner ++ [Word.new (content.drop start) k]) final rest
    else split_nl_go k content start inner final rest

/-- Word loop of the newline re-split (lines 530–552): words without an
embedded newline accumulate on the current line; words with one are
split.  Words left on the open line after the loop are dropped (the Rust
never pushes the trailing `inner_content`). -/
def split_nl_words : List Word → List Word → List (List Word) →
    List Word × List (List Word)
  | [], inner, final => (inner, final)
  | w :: rest, inner, final =>
    if w.content.contains '\n' then
      let p := split_nl_go w.kind w.content 0 inner final w.content.enum
      split_nl_words rest p.1 p.2
    else split_nl_words rest (inner ++ [w]) final

/-- `transform_codeblock` (lines 491–563), parameterised by the external
highlighter and color palette.  The empty leading line is inserted when
no language tag is present (before the highlight match, so the
highlighted path overwrites it); height becomes the final line count. -/
def transform_codeblock
    (highlight_code : List Char → List Char → HighlightInfo)
    (color_map : Nat → Color) (c : TextComponent) : TextComponent :=
  let language := match c.meta_info.head? with
    | some w => w.content
    | none => []
  let highlight := highlight_code language (content_as_bytes c)
  let content_str := (content_as_lines c).flatten
  let c := if language.isEmpty then
      { c with content := [Word.new [] (.CodeBlock .reset)] :: c.content }
    else c
  let c := match highlight with
    | .highlighted events =>
        let spans := hl_spans color_map content_str events .reset
        let p := split_nl_words spans.1 [] []
        { c with content := p.2 ++ [[Word.new [] (.CodeBlock spans.2)]] }
    | .unhighlighted => c
  { c with height := c.content.length }

/-- Per-marker step of the ordered-list counter stack of `transform_list`
(lines 594–619): compare the previous indent width `tmp` with the
marker's indent width, pushing a fresh counter on increase and popping on
decrease, then for an ordered marker increment the top counter and
return its value as the label.  `.expect("List parse error. Stack is
empty")` on an emptied stack is modelled as `none`. -/
def olist_step (stack : List Nat) (tmp meta_w : Nat) (ordered : Bool) :
    Option (List Nat × Option Nat) :=
  let stack := if tmp < meta_w then stack ++ [0]
               else if meta_w < tmp then stack.dropLast
               else stack
  if ordered then
    match stack.getLast? with
    | none => none
    | some counter =>
        some (stack.dropLast ++ [counter + 1], some (counter + 1))
  else some (stack, none)

/-- Label sequence of the ordered-list counter machine over a list of
(indent width, is-ordered) items, starting from the initial stack `[0]`
and indent 0 as `transform_list` does (lines 582–586). -/
def olist_labels_go (stack : List Nat) (tmp : Nat) :
    List (Nat × Bool) → Option (List (Option Nat))
  | [] => some []
  | (w, ord) :: rest =>
    match olist_step stack tmp w ord with
    | none => none
    | some (stack', lbl) => (olist_labels_go stack' w rest).map (lbl :: ·)

def olist_labels (items : List (Nat × Bool)) : Option (List (Option Nat)) :=
  olist_labels_go [0] 0 items

/-- First pass of `transform_list` (lines 587–637): walk the content
words, breaking a new line at every list marker (renumbering ordered
markers via `olist_step`) and at every word that no longer fits,
prefixing each new line with an indent filler.  Returns the raw lines
and the final `max_stack_len`. -/
def transform_list_go (width : Nat) :
    List (Word × Word) → List Nat → Nat → Nat → Nat → Nat → Nat →
      List (List Word) → List Word → List Word →
      Option (List (List Word) × Nat)
  | _, _, max_len, _, _, _, _, lines, line, [] =>
      some (lines ++ [line], max_len)
  | zip, stack, max_len, len, indent, extra, tmp, lines, line, w :: ws =>
    let word_len := display_width w.content
    if word_len + len < width ∧ ¬ w.kind = .ListMarker then
      transform_list_go width zip stack max_len (len + word_len) indent
        extra tmp lines (line ++ [w]) ws
    else
      if w.kind = .ListMarker then
        match zip with
        | (meta, list_type) :: zrest =>
            let mw := display_width meta.content
            let max_len' := if tmp < mw then max_len + 1 else max_len
            match olist_step stack tmp mw
                (decide (list_type.kind = .MetaInfo .OList)) with
            | none => none
            | some (stack', lbl) =>
                let w' := match lbl with
                  | some n => w.set_content ((toString n ++ ". ").data)
                  | none => w
                let extra' := match lbl with
                  | some _ => 1
                  | none => 0
                let filler := Word.new (List.replicate mw ' ') .Normal
                let w'' := w'.set_content
                  (w'.content.dropWhile rust_is_whitespace)
                let len' := display_width w''.content
                  + display_width filler.content
                transform_list_go width zrest stack' max_len' len' mw
                  extra' mw (lines ++ [line]) [filler, w''] ws
        | [] =>
            let filler := Word.new (List.replicate 0 ' ') .Normal
            let w'' := w.set_content (w.content.dropWhile rust_is_whitespace)
            let len' := display_width w''.content
              + display_width filler.content
            transform_list_go width zip stack max_len len' 0 extra tmp
              (lines ++ [line]) [filler, w''] ws
      else
        let filler := Word.new (List.replicate (indent + 2 + extra) ' ')
          .Normal
        let w'' := w.set_content (w.content.dropWhile rust_is_whitespace)
        let len' := display_width w''.content + display_width filler.content
        transform_list_go width zip stack max_len len' indent extra tmp
          (lines ++ [line]) [filler, w''] ws

/-- Detection of a rendered ordered marker (lines 649–653 of
src/nodes/textcomponent.rs): content starts with a nonzero digit and the
rest ends with `". "`. -/
def ordered_marker_content (s : List Char) : Bool :=
  match s with
  | d :: rest =>
      ['1','2','3','4','5','6','7','8','9'].contains d &&
        List.isSuffixOf ('.' :: ' ' :: []) rest
  | [] => false

/-- Second pass of `transform_list` (lines 644–673): compute, per indent
level, the maximum rendered ordered-label width.  Out-of-bounds accesses
(`line[0]`, `line[1]`, `indent_correction[i]`) panic in Rust and are
modelled as `none`. -/
def list_pass2_go (correction : List Nat) (idx ilen : Nat) :
    List (List Word) → Option (List Nat)
  | [] => some correction
  | line :: rest =>
    match line with
    | l0 :: l1 :: _ =>
        if !(ordered_marker_content l1.content) then
          list_pass2_go correction idx ilen rest
        else
          let lw := display_width l0.content
          let p := if ilen < lw then (idx + 1, lw)
                   else if lw < ilen then (idx - 1, lw)
                   else (idx, ilen)
          match correction.get? p.1 with
          | none => none
          | some cur =>
              list_pass2_go
                (correction.set p.1 (max cur (display_width l1.content)))
                p.1 p.2 rest
    | _ => none

/-- Third pass of `transform_list` (lines 678–722): re-pad every ordered
item's leading filler (and the continuation lines following it) so that
siblings align; bulleted runs are skipped. -/
def list_pass3_go (correction : List Nat) (idx ilen : Nat) (skip : Bool) :
    List (List Word) → Option (List (List Word))
  | [] => some []
  | line :: rest =>
    match line with
    | l0 :: l1 :: ltl =>
        let skip1 := if ordered_marker_content l1.content then false
          else skip
        if l1.content = ("• ".data) ∨ skip1 = true then
          (list_pass3_go correction idx ilen true rest).map (line :: ·)
        else
          if ordered_marker_content l1.content then
            let lw := display_width l0.content
            let p := if ilen < lw then (idx + 1, lw)
                     else if lw < ilen then (idx - 1, lw)
                     else (idx, ilen)
            match correction.get? p.1 with
            | none => none
            | some corr =>
                let amount := corr - display_width l1.content
                  + display_width l0.content
                (list_pass3_go correction p.1 p.2 skip1 rest).map
                  ((l0.set_content (List.replicate amount ' ') :: l1 :: ltl)
                    :: ·)
          else
            match correction.get? idx with
            | none => none
            | some corr =>
                let amount := (corr + display_width l0.content) - 3
                (list_pass3_go correction idx ilen skip1 rest).map
                  ((l0.set_content (List.replicate amount ' ') :: l1 :: ltl)
                    :: ·)
    | _ => none

/-- `transform_list` (lines 565–726).  The two parallel meta streams
(whitespace-only indent words, list-type words) are zipped and consumed
one pair per marker.  Height is the number of lines after the retain
(the third pass rewrites fillers one line at a time and keeps the line
count). -/
def transform_list (c : TextComponent) (width : Nat) :
    Option TextComponent :=
  let indent_iter := c.meta_info.filter
    (fun m => m.content.all rust_is_whitespace)
  let list_type_iter := c.meta_info.filter (fun m =>
    decide (m.kind = .MetaInfo .OList) || decide (m.kind = .MetaInfo .UList))
  let zip := indent_iter.zip list_type_iter
  match transform_list_go width zip [0] 1 0 0 0 0 [] [] c.content.flatten
    with
  | none => none
  | some (lines0, max_len) =>
      let lines := lines0.filter
        (fun l => l.any (fun w => !w.content.isEmpty))
      match list_pass2_go (List.replicate max_len 0) 0 0 lines with
      | none => none
      | some correction =>
          match list_pass3_go correction 0 0 true lines with
          | none => none
          | some lines2 =>
              some { c with height := lines2.length, content := lines2 }

/-- Reduction modulo 2^16: a `u16` cast. -/
def wrap16 (n : Nat) : Nat := n % 65536

/-- Wrapping `u16` subtraction — the release-build semantics of a Rust
`u16` subtraction that may underflow (a debug build panics there). -/
def sub16 (a b : Nat) : Nat := (wrap16 a + 65536 - wrap16 b) % 65536

/-- `content_entry_len` (lines 870–872 of src/nodes/textcomponent.rs). -/
def content_entry_len (ws : List Word) : Nat :=
  (ws.map (fun w => display_width w.content)).sum

/-- Natural width of one table column: the Rust updates a `widths` vector
in row-major order (`widths[col] = len as u16` whenever
`len > widths[col]`, lines 755–767); per column that is this fold over
the rows in order, with the `as u16` cast as `wrap16`. -/
def table_col_width (col : Nat) (rows : List (List (List Word))) : Nat :=
  rows.foldl (fun cur row =>
    match row.get? col with
    | some entry => if content_entry_len entry > cur
        then wrap16 (content_entry_len entry) else cur
    | none => cur) 0

def table_natural_widths (column_count : Nat)
    (content : List (List Word)) : List Nat :=
  (List.range column_count).map
    (fun col => table_col_width col (list_chunks column_count content))

/-- Stable ascending insertion into a sorted list of (column index,
natural width) pairs: an incoming element goes after every element with
a smaller-or-equal width. -/
def sorted_insert (x : Nat × Nat) : List (Nat × Nat) → List (Nat × Nat)
  | [] => [x]
  | y :: t => if y.2 ≤ x.2 then y :: sorted_insert x t else x :: y :: t

/-- Stable ascending sort by natural width, as itertools'
`sorted_by(|a, b| Ord::cmp(a.1, b.1))` (a stable sort; stable ascending
sorts agree, so insertion sort gives the identical output). -/
def sort_by_width (l : List (Nat × Nat)) : List (Nat × Nat) :=
  l.foldl (fun acc x => sorted_insert x acc) []

/-- The number of `ColumnsCount` meta markers (lines 731–735). -/
def table_column_count (c : TextComponent) : Nat :=
  c.meta_info.countP (fun w => decide (w.kind = .MetaInfo .ColumnsCount))

/-- The malformed-table fallback condition (line 737):
`!content.len().is_multiple_of(column_count) || column_count == 0`
(`is_multiple_of(0)` in Rust is `len == 0`, which `len % 0 = len`
reproduces). -/
def table_malformed (c : TextComponent) : Prop :=
  ¬ c.content.length % table_column_count c = 0 ∨ table_column_count c = 0

instance (c : TextComponent) : Decidable (table_malformed c) := by
  unfold table_malformed
  infer_instance

/-- One step of the balanced-width assignment loop (lines 819–837): in
exact arithmetic `(ratio * available).floor()` is
`old * available / overflow`-floor; the Rust computes it through `f32`
division and multiplication, which agrees on every value evaluated by
the theorems below (all exactly representable).  The `as u16` cast of
the floored `f32` saturates at 65535.  A clamped column removes its
natural width and the minimum from the two pools; `available_balanced_width`
can underflow there (`u16` wrap in release, panic in debug) — the
claim-C3 failing input exercises exactly that. -/
def table_balance_step (min_width : Nat) (st : Nat × Nat × List Nat)
    (p : Nat × Nat) : Nat × Nat × List Nat :=
  let availO := st.1
  let availB := st.2.1
  let wb := st.2.2
  let b := min ((p.2 * availB) / availO) 65535
  if b < min_width then
    (sub16 availO p.2, sub16 availB min_width, wb.set p.1 min_width)
  else (availO, availB, wb.set p.1 b)

/-- `transform_table` (lines 728–867).  `u16` arithmetic that can wrap in
the Rust is modelled with `wrap16`/`sub16`; panics (the
`overflowing_columns` assert, division by a zero `u16`) are `none`. -/
def transform_table (c : TextComponent) (width : Nat) :
    Option TextComponent :=
  let content := c.content
  let column_count := table_column_count c
  if table_malformed c then
    some { c with height := 1, kind := .Table [] [] }
  else
    let row_count := content.length / column_count
    let widths := table_natural_widths column_count content
    let styling_width := wrap16 column_count
    let unbalanced_cells_width := wrap16 widths.sum
    if wrap16 (unbalanced_cells_width + styling_width) ≤ width then
      let h := wrap16 row_count
      some { c with height := h, kind := .Table widths (List.replicate h 1) }
    else
      let overflow_threshold :=
        sub16 width styling_width / wrap16 column_count
      let overflowing := widths.enum.filter
        (fun p => overflow_threshold < p.2)
      let non_overflowing_width := wrap16
        (((widths.enum.filter (fun p => ¬ overflow_threshold < p.2)).map
          Prod.snd).sum)
      let overflowing_width := wrap16 ((overflowing.map Prod.snd).sum)
      if overflowing.isEmpty then none
      else
        let available_balanced_width :=
          sub16 (sub16 width non_overflowing_width) styling_width
        let min_width := max
          (available_balanced_width / wrap16 (2 * wrap16 overflowing.length))
          1
        let final_state := (sort_by_width overflowing).foldl
          (table_balance_step min_width)
          (overflowing_width, available_balanced_width, widths)
        let widths_balanced := final_state.2.2
        let rows := list_chunks column_count content
        let wrapped_rows := rows.map (fun row => row.enum.map
          (fun q => word_wrapping q.2 (widths_balanced.getD q.1 0) true))
        let heights := wrapped_rows.map (fun row =>
          row.foldl (fun h lines =>
            if h < wrap16 lines.length then wrap16 lines.length else h) 1)
        let new_content := (wrapped_rows.map (fun row =>
          row.map (fun lines => lines.flatten))).flatten
        some { c with
          height := wrap16 heights.sum
          content := new_content
          kind := .Table widths_balanced heights }

/-- `TextComponent::transform` (lines 312–333), parameterised by the
external highlighter and palette (used only for code blocks).  `Image`
is `unreachable!`, modelled as `none`. -/
def transform (highlight_code : List Char → List Char → HighlightInfo)
    (color_map : Nat → Color) (c : TextComponent) (width : Nat) :
    Option TextComponent :=
  match c.kind with
  | .List => transform_list c width
  | .CodeBlock => some (transform_codeblock highlight_code color_map c)
  | .Paragraph | .Task | .Quote => transform_paragraph c width
  | .LineBreak | .Heading => some { c with height := 1 }
  | .Table _ _ => transform_table c width
  | .HorizontalSeparator => some { c with height := 1 }
  | .Image => none
  | .Footnote => some { c with height := 0 }

theorem wrap16_wrap16 (n : Nat) : wrap16 (wrap16 n) = wrap16 n := by
  simp [wrap16, Nat.mod_mod]

theorem transform_paragraph_core_height (c : TextComponent) (w : Nat) :
    (transform_paragraph_core c w).height
      = (transform_paragraph_core c w).content.length := rfl

theorem transform_codeblock_height
    (hl : List Char → List Char → HighlightInfo) (cm : Nat → Color)
    (c : TextComponent) :
    (transform_codeblock hl cm c).height
      = (transform_codeblock hl cm c).content.length := rfl

theorem transform_list_shape (c : TextComponent) (width : Nat)
    (c' : TextComponent) (h : transform_list c width = some c') :
    c'.height = c'.content.length := by
  unfold transform_list at h
  dsimp only at h
  split at h
  · exact Option.noConfusion h
  · split at h
    · exact Option.noConfusion h
    · split at h
      · exact Option.noConfusion h
      · obtain rfl := Option.some.inj h
        rfl

theorem transform_table_shape (c : TextComponent) (width : Nat)
    (c' : TextComponent) (h : transform_table c width = some c') :
    ∃ ws hs, c'.kind = .Table ws hs ∧
      (if table_malformed c then c'.height = 1 ∧ ws = [] ∧ hs = []
       else c'.height = wrap16 hs.sum) := by
  unfold transform_table at h
  dsimp only at h
  split at h
  · rename_i hmal
    obtain rfl := Option.some.inj h
    exact ⟨[], [], rfl, by rw [if_pos hmal]; exact ⟨rfl, rfl, rfl⟩⟩
  · rename_i hmal
    split at h
    · obtain rfl := Option.some.inj h
      refine ⟨_, _, rfl, ?_⟩
      rw [if_neg hmal]
      show wrap16 _ = wrap16 (List.replicate (wrap16 _) 1).sum
      rw [List.sum_replicate]
      simp [wrap16_wrap16]
    · split at h
      · exact Option.noConfusion h
      · obtain rfl := Option.some.inj h
        refine ⟨_, _, rfl, ?_⟩
        rw [if_neg hmal]

/-- C2 (corrected): after a successful `transform(width)`, the height of
a Paragraph, Task, Quote, List or CodeBlock block equals the number of
lines in its content; a LineBreak, Heading or HorizontalSeparator block
has height 1 and a Footnote block height 0 regardless of its content's
line count; an Image block is never transformed (`unreachable!`); and a
Table block's height equals the sum of the `row_heights` carried in its
tag reduced modulo 2^16 (the `u16` sum), except in the malformed-table
fallback (zero columns, or a cell count that is not a multiple of the
column count) where the height is 1 and both tag vectors are emptied.
The original claim fails for Footnote (see `C2_height_counterexample`),
for multi-line Heading/LineBreak content, and for malformed tables. -/
theorem C2_transform_height
    (hl : List Char → List Char → HighlightInfo) (cm : Nat → Color)
    (c : TextComponent) (width : Nat) (c' : TextComponent)
    (h : transform hl cm c width = some c') :
    (match c.kind with
     | .Paragraph | .Task | .Quote | .List | .CodeBlock =>
         c'.height = c'.content.length
     | .LineBreak | .Heading | .HorizontalSeparator => c'.height = 1
     | .Footnote => c'.height = 0
     | .Image => False
     | .Table _ _ =>
         ∃ ws hs, c'.kind = .Table ws hs ∧
           (if table_malformed c then c'.height = 1 ∧ ws = [] ∧ hs = []
            else c'.height = wrap16 hs.sum)) := by
  unfold transform at h
  cases hk : c.kind with
  | Paragraph =>
      rw [hk] at h
      unfold transform_paragraph at h
      rw [hk] at h
      obtain rfl := Option.some.inj h
      exact transform_paragraph_core_height c (width - 1)
  | Task =>
      rw [hk] at h
      unfold transform_paragraph at h
      rw [hk] at h
      obtain rfl := Option.some.inj h
      exact transform_paragraph_core_height c (width - 4)
  | Quote =>
      rw [hk] at h
      unfold transform_paragraph at h
      rw [hk] at h
      obtain rfl := Option.some.inj h
      exact transform_paragraph_core_height c (width - 2)
  | List =>
      rw [hk] at h
      exact transform_list_shape c width c' h
  | CodeBlock =>
      rw [hk] at h
      obtain rfl := Option.some.inj h
      exact transform_codeblock_height hl cm c
  | LineBreak =>
      rw [hk] at h
      obtain rfl := Option.some.inj h
      rfl
  | Heading =>
      rw [hk] at h
      obtain rfl := Option.some.inj h
      rfl
  | HorizontalSeparator =>
      rw [hk] at h
      obtain rfl := Option.some.inj h
      rfl
  | Footnote =>
      rw [hk] at h
      obtain rfl := Option.some.inj h
      rfl
  | Image =>
      rw [hk] at h
      exact Option.noConfusion h
  | Table ws hs =>
      rw [hk] at h
      exact transform_table_shape c width c' h

/-- Block used by the C2 counterexample: a Footnote block with one
renderable word (one content line). -/
def c2_block : TextComponent :=
  TextComponent.new .Footnote [Word.new ("x".data) .Normal]

/-- Counterexample to C2 as stated: transforming a Footnote block with
one content line sets its height to 0, not to the number of lines in its
content (1), although its kind is not Table. -/
theorem C2_height_counterexample :
    c2_block.kind = .Footnote ∧
    ((transform (fun _ _ => .unhighlighted) (fun _ => .reset) c2_block
        80).map (fun c' => (c'.height, c'.content.length)))
      = some (0, 1) ∧
    (0 : Nat) ≠ 1 := by
  refine ⟨rfl, by decide, by decide⟩

/-- Witness for C2 at a concrete LineBreak block. -/
theorem C2_transform_height_witness :
    (transform (fun _ _ => .unhighlighted) (fun _ => .reset)
        (TextComponent.new .LineBreak []) 80
      = some { TextComponent.new .LineBreak [] with height := 1 }) ∧
    ({ TextComponent.new .LineBreak [] with height := 1 }
        : TextComponent).height = 1 :=
  ⟨by decide, C2_transform_height (fun _ _ => .unhighlighted)
    (fun _ => .reset) (TextComponent.new .LineBreak []) 80
    { TextComponent.new .LineBreak [] with height := 1 } (by decide)⟩

/-- Table used by the C3 failing input: two columns (two `ColumnsCount`
meta markers), one row, each cell a single character — natural widths
`[1, 1]`. -/
def c3_table : TextComponent :=
  { kind := .Table [] []
    content := [[Word.new ("a".data) .Normal], [Word.new ("b".data) .Normal]]
    meta_info := [Word.new [] (.MetaInfo .ColumnsCount),
      Word.new [] (.MetaInfo .ColumnsCount)]
    height := 0
    offset := 0
    scroll_offset := 0
    focused := false
    focused_index := 0 }

/-- C3 failing input, evaluated (code_bug): at target width 2 the table
is in the overflow branch (natural widths sum 2 plus styling 2 exceeds
2), the balanced-width loop clamps the first column to the minimum 1 and
subtracts it from the zero remaining budget — a `u16` underflow (panic
in a debug build; the wrapped budget 65535 in release makes the second
column 65535 wide) — so `sum(column_widths) + column_count = 65538`,
far above the target width 2 required by the claim and by spec §8. -/
theorem C3_transform_table_budget_violation :
    (¬ table_malformed c3_table) ∧
    table_natural_widths 2 c3_table.content = [1, 1] ∧
    (¬ wrap16 (wrap16 ((table_natural_widths 2 c3_table.content).sum)
        + wrap16 2) ≤ 2) ∧
    ((transform_table c3_table 2).map (fun c' => match c'.kind with
        | .Table ws _ => ws
        | _ => [])) = some [1, 65535] ∧
    (¬ ((1 : Nat) + 65535 + 2 ≤ 2)) := by
  refine ⟨by decide, by decide, by decide, by decide, by decide⟩

theorem olist_step_true_shape (stack : List Nat) (tmp w : Nat)
    (s' : List Nat) (l : Option Nat)
    (h : olist_step stack tmp w true = some (s', l)) :
    ∃ m, s'.getLast? = some m ∧ l = some m := by
  unfold olist_step at h
  dsimp only at h
  rw [if_pos rfl] at h
  cases hl : (if tmp < w then stack ++ [0]
      else if w < tmp then stack.dropLast else stack).getLast? with
  | none => rw [hl] at h; exact Option.noConfusion h
  | some cnt =>
      rw [hl] at h
      obtain ⟨h1, h2⟩ := Prod.mk.injEq .. ▸ Option.some.inj h
      exact ⟨cnt + 1, by rw [← h1]; exact List.getLast?_concat _, h2.symm⟩

theorem olist_step_eq_true (stack : List Nat) (w cnt : Nat)
    (h : stack.getLast? = some cnt) :
    olist_step stack w w true
      = some (stack.dropLast ++ [cnt + 1], some (cnt + 1)) := by
  unfold olist_step
  simp [lt_irrefl, h]

theorem olist_step_lt_true (stack : List Nat) (tmp w : Nat)
    (hlt : tmp < w) :
    olist_step stack tmp w true
      = some ((stack ++ [0]).dropLast ++ [1], some 1) := by
  unfold olist_step
  simp [hlt, List.getLast?_concat]

theorem olist_go_adjacent_same :
    ∀ (items : List (Nat × Bool)) (stack : List Nat) (tmp : Nat)
      (labels : List (Option Nat)) (k w : Nat),
      olist_labels_go stack tmp items = some labels →
      items.get? k = some (w, true) →
      items.get? (k + 1) = some (w, true) →
      ∃ n, labels.get? k = some (some n) ∧
        labels.get? (k + 1) = some (some (n + 1)) := by
  intro items
  induction items with
  | nil =>
      intro stack tmp labels k w h hk hk1
      exact Option.noConfusion hk
  | cons it rest ih =>
      intro stack tmp labels k w h hk hk1
      obtain ⟨w0, b0⟩ := it
      simp only [olist_labels_go] at h
      cases hstep : olist_step stack tmp w0 b0 with
      | none => rw [hstep] at h; exact Option.noConfusion h
      | some pr =>
          obtain ⟨s1, l0⟩ := pr
          rw [hstep] at h
          dsimp only at h
          obtain ⟨ls, hrec, hlab⟩ := Option.map_eq_some'.mp h
          subst hlab
          cases k with
          | zero =>
              simp only [List.get?_cons_zero, Option.some.injEq,
                Prod.mk.injEq] at hk
              obtain ⟨rfl, rfl⟩ := hk
              simp only [List.get?_cons_succ] at hk1
              cases rest with
              | nil => exact Option.noConfusion hk1
              | cons it1 rest' =>
                  simp only [List.get?_cons_zero, Option.some.injEq] at hk1
                  obtain rfl := hk1
                  obtain ⟨m, hm_last, rfl⟩ :=
                    olist_step_true_shape stack tmp w0 s1 l0 hstep
                  simp only [olist_labels_go] at hrec
                  rw [olist_step_eq_true s1 w0 m hm_last] at hrec
                  dsimp only at hrec
                  obtain ⟨ls', hrec2, hlab2⟩ := Option.map_eq_some'.mp hrec
                  subst hlab2
                  exact ⟨m, rfl, rfl⟩
          | succ k' =>
              simp only [List.get?_cons_succ] at hk hk1
              exact ih s1 w0 ls k' w hrec hk hk1

theorem olist_go_adjacent_push :
    ∀ (items : List (Nat × Bool)) (stack : List Nat) (tmp : Nat)
      (labels : List (Option Nat)) (k w₁ w₂ : Nat) (b : Bool),
      olist_labels_go stack tmp items = some labels →
      items.get? k = some (w₁, b) →
      items.get? (k + 1) = some (w₂, true) →
      w₁ < w₂ →
      labels.get? (k + 1) = some (some 1) := by
  intro items
  induction items with
  | nil =>
      intro stack tmp labels k w₁ w₂ b h hk hk1 hlt
      exact Option.noConfusion hk
  | cons it rest ih =>
      intro stack tmp labels k w₁ w₂ b h hk hk1 hlt
      obtain ⟨w0, b0⟩ := it
      simp only [olist_labels_go] at h
      cases hstep : olist_step stack tmp w0 b0 with
      | none => rw [hstep] at h; exact Option.noConfusion h
      | some pr =>
          obtain ⟨s1, l0⟩ := pr
          rw [hstep] at h
          dsimp only at h
          obtain ⟨ls, hrec, hlab⟩ := Option.map_eq_some'.mp h
          subst hlab
          cases k with
          | zero =>
              simp only [List.get?_cons_zero, Option.some.injEq,
                Prod.mk.injEq] at hk
              obtain ⟨rfl, rfl⟩ := hk
              simp only [List.get?_cons_succ] at hk1
              cases rest with
              | nil => exact Option.noConfusion hk1
              | cons it1 rest' =>
                  simp only [List.get?_cons_zero, Option.some.injEq] at hk1
                  obtain rfl := hk1
                  simp only [olist_labels_go] at hrec
                  rw [olist_step_lt_true s1 w0 w₂ hlt] at hrec
                  dsimp only at hrec
                  obtain ⟨ls', hrec2, hlab2⟩ := Option.map_eq_some'.mp hrec
                  subst hlab2
                  rfl
          | succ k' =>
              simp only [List.get?_cons_succ] at hk hk1
              exact ih s1 w0 ls k' w₁ w₂ b hrec hk hk1 hlt

/-- Parser-shaped two-item ordered list (each row: indent meta word,
marker word, content word, OList meta word), as `new_formatted` receives
it. -/
def two_item_list : TextComponent :=
  TextComponent.new_formatted .List
    [[Word.new [] (.MetaInfo .Other), Word.new ("X. ".data) .ListMarker,
      Word.new ("first".data) .Normal, Word.new ("X".data) (.MetaInfo .OList)],
     [Word.new [] (.MetaInfo .Other), Word.new ("X. ".data) .ListMarker,
      Word.new ("second".data) .Normal,
      Word.new ("X".data) (.MetaInfo .OList)]]

/-- C9 (confirmed): the ordered-list counter machine of `transform_list`
(`olist_step`, consumed one (indent width, is-ordered) pair per marker
starting from stack `[0]`) numbers consecutive ordered items of equal
indent width with labels that increase exactly by 1, and labels an
ordered item whose indent width strictly increased — a fresh nested
level — with 1; and on a concrete two-item ordered list `transform_list`
renders the markers `"1. "` then `"2. "`. -/
theorem C9_olist_numbering :
    (∀ (items : List (Nat × Bool)) (labels : List (Option Nat)) (k w : Nat),
       olist_labels items = some labels →
       items.get? k = some (w, true) →
       items.get? (k + 1) = some (w, true) →
       ∃ n, labels.get? k = some (some n) ∧
         labels.get? (k + 1) = some (some (n + 1))) ∧
    (∀ (items : List (Nat × Bool)) (labels : List (Option Nat))
       (k w₁ w₂ : Nat) (b : Bool),
       olist_labels items = some labels →
       items.get? k = some (w₁, b) →
       items.get? (k + 1) = some (w₂, true) →
       w₁ < w₂ →
       labels.get? (k + 1) = some (some 1)) ∧
    ((transform_list two_item_list 40).map
        (fun c => c.content.map (fun l => l.map Word.content)))
      = some [[[], ("1. ".data), ("first".data)],
              [[], ("2. ".data), ("second".data)]] := by
  refine ⟨?_, ?_, by decide⟩
  · intro items labels k w h hk hk1
    exact olist_go_adjacent_same items [0] 0 labels k w h hk hk1
  · intro items labels k w₁ w₂ b h hk hk1 hlt
    exact olist_go_adjacent_push items [0] 0 labels k w₁ w₂ b h hk hk1 hlt

/-- Witness for C9: two ordered items at the same indent get labels 1
and 2. -/
theorem C9_olist_numbering_witness :
    (olist_labels [(0, true), (0, true)] = some [some 1, some 2]) ∧
    (([(0, true), (0, true)] : List (Nat × Bool)).get? 0 = some (0, true)) ∧
    (∃ n, ([some 1, some 2] : List (Option Nat)).get? 0 = some (some n) ∧
      ([some 1, some 2] : List (Option Nat)).get? 1 = some (some (n + 1))) :=
  ⟨by decide, by decide,
    C9_olist_numbering.1 [(0, true), (0, true)] [some 1, some 2] 0 0
      (by decide) (by decide) (by decide)⟩

end MdTui
